import Mathlib

/-!
Verification of the prompt-repository context aggregation engine.

This file shallowly embeds the repository's core logic:
  * `src/index.ts` — the Entry Store access layer (`getPrompts`, `listAll`,
    `listPromptFiles`, `ContextBuilder`);
  * `scripts/build-context.ts` — the Context Aggregator (`buildContext`,
    `calculateTotalPrompts`) and Serializer (`formatOutput`);
  * `scripts/validate-structure.ts` — the Structure Validator.

The backing file tree is modelled by an explicit `Store` value; machine
side effects (readdir, stat, readFile) become total lookups into that
value, with read failures represented by `Option`/`Except`.
-/

namespace Prompts

/-! ## String helpers mirroring Node `path` / JS string semantics -/

/-- Node `path.extname`: the suffix of the name from its last `.`, empty when the
last dot is the first character (dotfiles have no extension). -/
def extname (s : String) : String :=
  match s.data.reverse.findIdx? (· == '.') with
  | none => ""
  | some k =>
    let i := s.data.length - 1 - k
    if i == 0 then "" else String.mk (s.data.drop i)

/-- JS `String.replace(pat, '')` with a plain-string pattern: removes the first
occurrence of `pat` only. -/
def stripFirst (pat : List Char) : List Char → List Char
  | [] => []
  | c :: rest =>
    if pat.isPrefixOf (c :: rest) then (c :: rest).drop pat.length
    else c :: stripFirst pat rest

/-- `file.replace('.md', '')` from `getPrompts` / `listPromptFiles`. -/
def stripMd (s : String) : String := String.mk (stripFirst ['.', 'm', 'd'] s.data)

/-- JS object property assignment on an insertion-ordered object: rebinds an
existing key in place, otherwise appends the new key at the end. -/
def objSet {α : Type} : List (String × α) → String → α → List (String × α)
  | [], k, v => [(k, v)]
  | (k₀, v₀) :: rest, k, v =>
    if k₀ == k then (k₀, v) :: rest else (k₀, v₀) :: objSet rest k v

/-! ## The UTF-16 code-unit order used by JS `Array.prototype.sort()` -/

/-- UTF-16 encoding of one unicode scalar value, as code-unit integers. -/
def utf16Units (c : Char) : List Nat :=
  if c.val.toNat < 0x10000 then [c.val.toNat]
  else [0xD800 + (c.val.toNat - 0x10000) / 0x400, 0xDC00 + (c.val.toNat - 0x10000) % 0x400]

/-- UTF-16 code units of a string. -/
def utf16 (s : String) : List Nat := (s.data.map utf16Units).flatten

/-- Lexicographic comparison of code-unit sequences. -/
def lexLe : List Nat → List Nat → Bool
  | [], _ => true
  | _ :: _, [] => false
  | a :: as, b :: bs => if a < b then true else if b < a then false else lexLe as bs

/-- The default JS sort comparator on strings: lexicographic over UTF-16
code units. -/
def jsLe (a b : String) : Prop := lexLe (utf16 a) (utf16 b) = true

instance : DecidableRel jsLe := fun a b => by unfold jsLe; infer_instance

theorem lexLe_total (u v : List Nat) : lexLe u v = true ∨ lexLe v u = true := by
  induction u generalizing v with
  | nil => left; rfl
  | cons a as ih =>
    cases v with
    | nil => right; rfl
    | cons b bs =>
      by_cases hab : a < b
      · left; simp [lexLe, hab]
      · by_cases hba : b < a
        · right; simp [lexLe, hba, hab]
        · have : ¬ a < b := hab
          rcases ih bs with h | h
          · left; simp [lexLe, hab, hba, h]
          · right; simp [lexLe, hab, hba, h]

theorem lexLe_trans (u v w : List Nat) (h₁ : lexLe u v = true) (h₂ : lexLe v w = true) :
    lexLe u w = true := by
  induction u generalizing v w with
  | nil => rfl
  | cons a as ih =>
    cases v with
    | nil => simp [lexLe] at h₁
    | cons b bs =>
      cases w with
      | nil => simp [lexLe] at h₂
      | cons c cs =>
        simp only [lexLe] at h₁ h₂ ⊢
        split_ifs at h₁ h₂ ⊢ <;>
          first
            | rfl
            | exact h₁.elim
            | exact h₂.elim
            | omega
            | exact ih bs cs h₁ h₂

instance : IsTotal String jsLe := ⟨fun a b => lexLe_total (utf16 a) (utf16 b)⟩

instance : IsTrans String jsLe := ⟨fun a b c => lexLe_trans (utf16 a) (utf16 b) (utf16 c)⟩

/-! ## The Entry Store model

The store backs `PROMPTS_DIR`.  `base` is the result of
`readdirSync(PROMPTS_DIR)` together with the per-child `isDirectory()` stat
(`none` means the base directory cannot be read); `dirs name` is the result
of `readdirSync(join(PROMPTS_DIR, name))` with per-file stat and the
`readFileSync` outcome (`content = none` means the read fails). -/

structure DirEnt where
  name : String
  isDir : Bool
deriving DecidableEq

structure FileEnt where
  name : String
  isFile : Bool
  content : Option String
deriving DecidableEq

structure Store where
  base : Option (List DirEnt)
  dirs : String → Option (List FileEnt)

/-- An in-memory `PackagePrompts` object: prompt-file key bound to its text. -/
abbrev PromptObj := List (String × String)

/-! ## `src/index.ts` -/

/-- The loop body of `getPrompts`: visible `.md` files are read one by one;
a failed read is warned about and skipped, a successful read is assigned
under the file name with the `.md` suffix stripped. -/
def collectPrompts : List FileEnt → PromptObj → PromptObj
  | [], acc => acc
  | f :: rest, acc =>
    if f.isFile && extname f.name == ".md" then
      match f.content with
      | some c => collectPrompts rest (objSet acc (stripMd f.name) c)
      | none => collectPrompts rest acc
    else collectPrompts rest acc

/-- `getPrompts(name)`: reads every `.md` file of the directory; if the
directory itself cannot be listed the error is rethrown as
`Failed to load prompts for: name`. -/
def getPrompts (st : Store) (name : String) : Except String PromptObj :=
  match st.dirs name with
  | none => .error ("Failed to load prompts for: " ++ name)
  | some files => .ok (collectPrompts files [])

/-- `item.startsWith('.')`. -/
def startsWithDot (s : String) : Bool :=
  match s.data with
  | c :: _ => c == '.'
  | [] => false

/-- `listAll()`: child directory names of the prompts root, dotfiles
excluded, sorted by the default JS comparator; an unreadable root yields
the empty list. -/
def listAll (st : Store) : List String :=
  match st.base with
  | none => []
  | some items =>
    List.insertionSort jsLe
      ((items.filter (fun it => it.isDir && !startsWithDot it.name)).map (·.name))

/-- `listPromptFiles(name)`: names of the `.md` files of one directory,
suffix stripped; an unreadable directory yields the empty list. -/
def listPromptFiles (st : Store) (name : String) : List String :=
  match st.dirs name with
  | none => []
  | some files =>
    (files.filter (fun f => f.isFile && extname f.name == ".md")).map (fun f => stripMd f.name)

/-! ## JS values

The aggregated context and the serializer payloads are ordinary JS values:
insertion-ordered objects, strings, numbers, arrays, `null`, `undefined`. -/

inductive JVal where
  | jnull
  | str (s : String)
  | num (n : Nat)
  | arr (es : List JVal)
  | obj (fs : List (String × JVal))
  | undef

def JVal.isUndef : JVal → Bool
  | .undef => true
  | _ => false

/-- Field lookup on a JS object (first binding wins). -/
def objGet : List (String × JVal) → String → Option JVal
  | [], _ => none
  | (k₀, v₀) :: rest, k => if k₀ == k then some v₀ else objGet rest k

/-- A `PackagePrompts` record as a JS object. -/
def promptsToJVal (p : PromptObj) : JVal := .obj (p.map (fun kv => (kv.1, JVal.str kv.2)))

mutual

/-- The inner `countPrompts` of `calculateTotalPrompts`: a `for key in obj`
walk counting string-valued leaves; non-null object values (arrays
included) are recursed into, everything else is ignored. -/
def countPrompts : JVal → Nat
  | .obj fs => countFieldList fs
  | .arr es => countElemList es
  | _ => 0

def countFieldList : List (String × JVal) → Nat
  | [] => 0
  | (_, .str _) :: rest => 1 + countFieldList rest
  | (_, .obj fs) :: rest => countFieldList fs + countFieldList rest
  | (_, .arr es) :: rest => countElemList es + countFieldList rest
  | (_, _) :: rest => countFieldList rest

def countElemList : List JVal → Nat
  | [] => 0
  | .str _ :: rest => 1 + countElemList rest
  | .obj fs :: rest => countFieldList fs + countElemList rest
  | .arr es :: rest => countElemList es + countElemList rest
  | _ :: rest => countElemList rest

end

/-- `calculateTotalPrompts(context)`. -/
def calculateTotalPrompts (context : JVal) : Nat := countPrompts context

/-! ## The Context Aggregator (`scripts/build-context.ts`)

Aggregation runs are instrumented with a trace of the Entry Store accesses
they perform, so that statements of the form "fails before touching the
Entry Store" are expressible.  A computation is a pair of the access trace
and an `Except` outcome; a thrown JS error carries the trace accumulated
before the throw. -/

inductive StoreOp where
  | list (dir : String)
  | read (dir : String) (file : String)
deriving DecidableEq

def Tr (α : Type) : Type := List StoreOp × Except String α

def Tr.pure {α : Type} (a : α) : Tr α := ([], .ok a)

def Tr.bind {α β : Type} : Tr α → (α → Tr β) → Tr β
  | (ops, .ok a), f => (ops ++ (f a).1, (f a).2)
  | (ops, .error e), _ => (ops, .error e)

instance : Monad Tr where
  pure := Tr.pure
  bind := Tr.bind

def Tr.throw {α : Type} (e : String) : Tr α := ([], .error e)

/-- Attempted `readFileSync` calls of one `getPrompts` run: every visible
`.md` file is read. -/
def readOps (dir : String) (files : List FileEnt) : List StoreOp :=
  (files.filter (fun f => f.isFile && extname f.name == ".md")).map (fun f => .read dir f.name)

/-- `getPrompts` with its store accesses traced. -/
def getPromptsT (st : Store) (name : String) : Tr PromptObj :=
  match st.dirs name with
  | none => ([.list name], .error ("Failed to load prompts for: " ++ name))
  | some files => (.list name :: readOps name files, .ok (collectPrompts files []))

/-- `getSystemPrompts()` is `getPrompts('system')`. -/
def getSystemPromptsT (st : Store) : Tr PromptObj := getPromptsT st "system"

/-- `getWorkflowPrompts()` is `getPrompts('workflows')`. -/
def getWorkflowPromptsT (st : Store) : Tr PromptObj := getPromptsT st "workflows"

/-- `getApplicationPrompts` is declared in src/index.ts as a zero-parameter
arrow returning `getPrompts('h1b-visa-analysis')`; the build script passes
it an application name, which a JS call silently ignores. -/
def getApplicationPromptsT (st : Store) : Tr PromptObj := getPromptsT st "h1b-visa-analysis"

/-- Modelled from the spec: `listPackages` is imported by the build script
from src/index.ts but is not defined there.  Per the spec the set of known
packages is obtained by a listing call against the Entry Store at
aggregation time, so it is modelled as listing the child directories of
the `packages` partition. -/
def listPackagesT (st : Store) : Tr (List String) :=
  ([.list "packages"],
    .ok (match st.dirs "packages" with
      | none => []
      | some es => (es.filter (fun f => !f.isFile)).map (·.name)))

/-- Modelled from the spec: `listApplications` is imported by the build
script but missing from src/index.ts; modelled as listing the child
directories of the `applications` partition. -/
def listApplicationsT (st : Store) : Tr (List String) :=
  ([.list "applications"],
    .ok (match st.dirs "applications" with
      | none => []
      | some es => (es.filter (fun f => !f.isFile)).map (·.name)))

/-- Modelled from the spec: `listWorkflows` is imported by the build script
but missing from src/index.ts; per the spec workflow names are the entry
names of the `workflows` partition. -/
def listWorkflowsT (st : Store) : Tr (List String) :=
  ([.list "workflows"], .ok (listPromptFiles st "workflows"))

/-- Modelled from the spec: the build script chains
`createContextBuilder().loadSystem().loadWorkflows().build()` and
`createContextBuilder().loadPackage(name).build()`, but src/index.ts's
`ContextBuilder` has no such methods.  Per the spec the full scope
aggregates the `system` and `workflows` partitions and whole packages, so
each method is modelled like `ContextBuilder.load`: it binds the loaded
prompts under the corresponding top-level key of the builder's context. -/
def loadSystemB (st : Store) (b : List (String × JVal)) : Tr (List (String × JVal)) := do
  let p ← getSystemPromptsT st
  Pure.pure (objSet b "system" (promptsToJVal p))

/-- Modelled from the spec: see `loadSystemB`. -/
def loadWorkflowsB (st : Store) (b : List (String × JVal)) : Tr (List (String × JVal)) := do
  let p ← getWorkflowPromptsT st
  Pure.pure (objSet b "workflows" (promptsToJVal p))

/-- Modelled from the spec: see `loadSystemB`; loading one package binds its
prompts under the package name, like `ContextBuilder.load(name)` backed by
`getPackagePrompts(name) = getPrompts(name)`. -/
def loadPackageB (st : Store) (b : List (String × JVal)) (name : String) :
    Tr (List (String × JVal)) := do
  let p ← getPromptsT st name
  Pure.pure (objSet b name (promptsToJVal p))

/-- `context.applications[appName] = ...` preceded by
`if (!context.applications) context.applications = {}`. -/
def setApplication (ctx : JVal) (app : String) (v : JVal) : JVal :=
  match ctx with
  | .obj fs =>
    let fs' := match objGet fs "applications" with
      | some _ => fs
      | none => fs ++ [("applications", JVal.obj [])]
    .obj (fs'.map (fun kv =>
      if kv.1 == "applications" then
        match kv.2 with
        | .obj g => (kv.1, JVal.obj (objSet g app v))
        | other => (kv.1, other)
      else kv))
  | other => other

structure ContextOptions where
  scope : String
  target : Option String
  format : String
  includeMetadata : Bool
  minify : Bool

structure ContextMetadata where
  generated : String
  scope : String
  target : Option String
  packages : List String
  applications : List String
  workflows : List String
  totalPrompts : Nat

/-- `buildContext(options)`: the generation timestamp is passed in as `now`.
The metadata listings run first; the scope dispatch mirrors the source's
string switch, including the fresh-builder reassignment inside the
package loop of the `full` case. -/
def buildContext (st : Store) (now : String) (opts : ContextOptions) :
    Tr (JVal × ContextMetadata) := do
  let pkgs ← listPackagesT st
  let apps ← listApplicationsT st
  let wfs ← listWorkflowsT st
  let md : ContextMetadata :=
    { generated := now, scope := opts.scope, target := opts.target,
      packages := pkgs, applications := apps, workflows := wfs, totalPrompts := 0 }
  if opts.scope == "system" then
    let sys ← getSystemPromptsT st
    let context := JVal.obj [("system", promptsToJVal sys)]
    Pure.pure (context, { md with totalPrompts := sys.length })
  else if opts.scope == "package" then
    match opts.target with
    | none => Tr.throw "Package name required for package scope"
    | some t => do
      let p ← getPromptsT st t
      let context := JVal.obj [("package", JVal.obj [(t, promptsToJVal p)])]
      Pure.pure (context, { md with totalPrompts := p.length })
  else if opts.scope == "application" then
    match opts.target with
    | none => Tr.throw "Application name required for application scope"
    | some t => do
      let p ← getApplicationPromptsT st
      let context := JVal.obj [("application", JVal.obj [(t, promptsToJVal p)])]
      Pure.pure (context, { md with totalPrompts := p.length })
  else if opts.scope == "workflow" then
    match opts.target with
    | some t => do
      let wf ← getWorkflowPromptsT st
      let v : JVal := match List.lookup t wf with
        | some c => .str c
        | none => .undef
      let context := JVal.obj [("workflow", JVal.obj [(t, v)])]
      Pure.pure (context, { md with totalPrompts := 1 })
    | none => do
      let wf ← getWorkflowPromptsT st
      let context := JVal.obj [("workflows", promptsToJVal wf)]
      Pure.pure (context, { md with totalPrompts := wf.length })
  else if opts.scope == "full" then do
    let b ← loadSystemB st []
    let b ← loadWorkflowsB st b
    let context := JVal.obj b
    let context ← pkgs.foldlM (fun _prev packageName => do
      let b ← loadPackageB st [] packageName
      Pure.pure (JVal.obj b)) context
    let context ← apps.foldlM (fun ctx appName => do
      let p ← getApplicationPromptsT st
      Pure.pure (setApplication ctx appName (promptsToJVal p))) context
    Pure.pure (context, { md with totalPrompts := calculateTotalPrompts context })
  else
    Tr.throw ("Unknown scope: " ++ opts.scope)

/-! ## The Serializer (`formatOutput` and the three format variants) -/

def digitToChar (d : Nat) : Char := Char.ofNat (48 + d)

/-- Decimal digits of a number, as JSON emits integers. -/
def natChars (n : Nat) : List Char :=
  if n = 0 then ['0'] else (Nat.digits 10 n).reverse.map digitToChar

def hexChar (d : Nat) : Char := if d < 10 then digitToChar d else Char.ofNat (87 + d)

/-- JSON.stringify escaping of one character inside a string literal. -/
def escChar (c : Char) : List Char :=
  if c == '"' then ['\\', '"']
  else if c == '\\' then ['\\', '\\']
  else if c.toNat == 8 then ['\\', 'b']
  else if c.toNat == 9 then ['\\', 't']
  else if c.toNat == 10 then ['\\', 'n']
  else if c.toNat == 12 then ['\\', 'f']
  else if c.toNat == 13 then ['\\', 'r']
  else if c.toNat < 32 then ['\\', 'u', '0', '0', hexChar (c.toNat / 16), hexChar (c.toNat % 16)]
  else [c]

/-- A JSON string literal. -/
def quoteStr (s : String) : List Char := '"' :: (s.data.map escChar).flatten ++ ['"']

mutual

/-- `JSON.stringify(v)` (minified).  Object members whose value is
`undefined` are dropped; an `undefined` array element is emitted as
`null` (the only position in which this embedding reaches the `undef`
case). -/
def minVal : JVal → List Char
  | .jnull => ['n', 'u', 'l', 'l']
  | .undef => ['n', 'u', 'l', 'l']
  | .str s => quoteStr s
  | .num n => natChars n
  | .arr es => '[' :: minElems es ++ [']']
  | .obj fs => '{' :: minFields fs ++ ['}']

def minElems : List JVal → List Char
  | [] => []
  | e :: rest => minVal e ++ (if rest.isEmpty then [] else ',' :: minElems rest)

def minFields : List (String × JVal) → List Char
  | [] => []
  | (k, v) :: rest =>
    if v.isUndef then minFields rest
    else quoteStr k ++ ':' :: minVal v ++
      (if rest.any (fun kv => !kv.2.isUndef) then ',' :: minFields rest else [])

end

def indent (d : Nat) : List Char := List.replicate (2 * d) ' '

mutual

/-- `JSON.stringify(v, null, 2)`: two-space pretty printing at nesting
depth `d`. -/
def pVal (d : Nat) : JVal → List Char
  | .jnull => ['n', 'u', 'l', 'l']
  | .undef => ['n', 'u', 'l', 'l']
  | .str s => quoteStr s
  | .num n => natChars n
  | .arr [] => ['[', ']']
  | .arr (e :: rest) =>
    '[' :: '\n' :: pElems (d + 1) (e :: rest) ++ '\n' :: indent d ++ [']']
  | .obj fs =>
    if fs.any (fun kv => !kv.2.isUndef) then
      '{' :: '\n' :: pFields (d + 1) fs ++ '\n' :: indent d ++ ['}']
    else ['{', '}']

def pElems (d : Nat) : List JVal → List Char
  | [] => []
  | e :: rest =>
    indent d ++ pVal d e ++ (if rest.isEmpty then [] else ',' :: '\n' :: pElems d rest)

def pFields (d : Nat) : List (String × JVal) → List Char
  | [] => []
  | (k, v) :: rest =>
    if v.isUndef then pFields d rest
    else indent d ++ quoteStr k ++ ':' :: ' ' :: pVal d v ++
      (if rest.any (fun kv => !kv.2.isUndef) then ',' :: '\n' :: pFields d rest else [])

end

def jsonStringify (v : JVal) : String := String.mk (minVal v)

def jsonStringifyPretty (v : JVal) : String := String.mk (pVal 0 v)

/-- The `metadata` record as the JS object the `json` branch serializes. -/
def metadataToJVal (md : ContextMetadata) : JVal :=
  .obj [("generated", .str md.generated), ("scope", .str md.scope),
        ("target", match md.target with | some t => .str t | none => .undef),
        ("packages", .arr (md.packages.map JVal.str)),
        ("applications", .arr (md.applications.map JVal.str)),
        ("workflows", .arr (md.workflows.map JVal.str)),
        ("totalPrompts", .num md.totalPrompts)]

mutual

/-- `objectToXML(obj, indent)`: string values become raw CDATA sections,
object values become nested container elements; a `for key in` walk over
an array visits its index keys. -/
def objectToXML (ind : List Char) : List (String × JVal) → List Char
  | [] => []
  | (k, v) :: rest => xmlMember ind k v ++ objectToXML ind rest

def xmlMember (ind : List Char) (k : String) : JVal → List Char
  | .str s =>
    ind ++ '<' :: k.data ++ '>' :: "<![CDATA[\n".data ++ s.data ++ "\n]]></".data ++
      k.data ++ ['>', '\n']
  | .obj fs =>
    ind ++ '<' :: k.data ++ ['>', '\n'] ++ objectToXML (ind ++ [' ', ' ']) fs ++
      ind ++ '<' :: '/' :: k.data ++ ['>', '\n']
  | .arr es =>
    ind ++ '<' :: k.data ++ ['>', '\n'] ++ xmlElems (ind ++ [' ', ' ']) 0 es ++
      ind ++ '<' :: '/' :: k.data ++ ['>', '\n']
  | _ => []

def xmlElems (ind : List Char) (i : Nat) : List JVal → List Char
  | [] => []
  | e :: rest => xmlMember ind (Nat.repr i) e ++ xmlElems ind (i + 1) rest

end

/-- `formatAsXML`. -/
def formatAsXML (context : JVal) (md : ContextMetadata) (opts : ContextOptions) : String :=
  let header := "<?xml version=\"1.0\" encoding=\"UTF-8\"?>\n".data
  let body := match context with
    | .obj fs => objectToXML "    ".data fs
    | _ => []
  let chars :=
    if opts.includeMetadata then
      header ++ "<context_export>\n  <metadata>\n    <generated>".data ++
        md.generated.data ++ "</generated>\n    <scope>".data ++ md.scope.data ++
        "</scope>\n".data ++
        (match md.target with
          | some t => "    <target>".data ++ t.data ++ "</target>\n".data
          | none => []) ++
        "    <total_prompts>".data ++ (Nat.repr md.totalPrompts).data ++
        "</total_prompts>\n  </metadata>\n  <prompts>\n".data ++
        body ++ "  </prompts>\n</context_export>".data
    else
      header ++ "<prompts>\n".data ++ body ++ "</prompts>".data
  String.mk chars

/-- `key.charAt(0).toUpperCase() + key.slice(1)` (ASCII mapping). -/
def capitalize (s : String) : String :=
  match s.data with
  | [] => ""
  | c :: rest => String.mk (c.toUpper :: rest)

mutual

/-- `objectToMarkdown(obj, level)`: headings whose depth equals nesting
level, capped at six. -/
def objectToMarkdown (level : Nat) : List (String × JVal) → List Char
  | [] => []
  | (k, v) :: rest => mdMember level k v ++ objectToMarkdown level rest

def mdMember (level : Nat) (k : String) : JVal → List Char
  | .str s =>
    List.replicate (min level 6) '#' ++ ' ' :: (capitalize k).data ++ '\n' :: '\n' ::
      s.data ++ ['\n', '\n']
  | .obj fs =>
    List.replicate (min level 6) '#' ++ ' ' :: (capitalize k).data ++ '\n' :: '\n' ::
      objectToMarkdown (level + 1) fs
  | .arr es =>
    List.replicate (min level 6) '#' ++ ' ' :: (capitalize k).data ++ '\n' :: '\n' ::
      mdElems (level + 1) 0 es
  | _ => []

def mdElems (level : Nat) (i : Nat) : List JVal → List Char
  | [] => []
  | e :: rest => mdMember level (Nat.repr i) e ++ mdElems level (i + 1) rest

end

/-- `formatAsMarkdown`. -/
def formatAsMarkdown (context : JVal) (md : ContextMetadata) (opts : ContextOptions) : String :=
  let body := match context with
    | .obj fs => objectToMarkdown 1 fs
    | _ => []
  let chars :=
    if opts.includeMetadata then
      "# Context Export\n\n**Generated**: ".data ++ md.generated.data ++
        "\n**Scope**: ".data ++ md.scope.data ++
        (match md.target with
          | some t => "\n**Target**: ".data ++ t.data
          | none => []) ++
        "\n**Total Prompts**: ".data ++ (Nat.repr md.totalPrompts).data ++
        "\n\n---\n\n".data ++ body
    else body
  String.mk chars

/-- `formatOutput(context, metadata, options)`. -/
def formatOutput (context : JVal) (md : ContextMetadata) (opts : ContextOptions) :
    Except String String :=
  if opts.format == "json" then
    let jsonOutput :=
      if opts.includeMetadata then
        JVal.obj [("metadata", metadataToJVal md), ("context", context)]
      else context
    .ok (if opts.minify then jsonStringify jsonOutput else jsonStringifyPretty jsonOutput)
  else if opts.format == "xml" then .ok (formatAsXML context md opts)
  else if opts.format == "markdown" then .ok (formatAsMarkdown context md opts)
  else .error ("Unknown format: " ++ opts.format)

/-! ## A structured-data (JSON) parser

The round-trip property of the structured-data variant is witnessed by an
executable parser for the JSON fragment the serializer emits: objects,
arrays, strings, integers and `null`, with arbitrary whitespace between
tokens.  Recursion is bounded by an explicit fuel argument; input length
plus one is always enough fuel. -/

def isWs (c : Char) : Bool := c == ' ' || c == '\n' || c == '\t' || c == '\r'

def skipWs (cs : List Char) : List Char := cs.dropWhile isWs

/-- Value of one hexadecimal digit character. -/
def hexVal (c : Char) : Option Nat :=
  if '0' ≤ c && c ≤ '9' then some (c.toNat - 48)
  else if 'a' ≤ c && c ≤ 'f' then some (c.toNat - 87)
  else if 'A' ≤ c && c ≤ 'F' then some (c.toNat - 55)
  else none

/-- Single-character escapes accepted after a backslash, decoded by code
point: quote, backslash and slash stand for themselves; the letters
b, t, n, f, r stand for their control codes. -/
def unescCode (n : Nat) : Option Nat :=
  if n == 34 || n == 92 || n == 47 then some n
  else if n == 98 then some 8
  else if n == 116 then some 9
  else if n == 110 then some 10
  else if n == 102 then some 12
  else if n == 114 then some 13
  else none

def unescChar (c : Char) : Option Char := (unescCode c.toNat).map Char.ofNat

/-- Parses the body of a string literal after the opening quote, returning
the decoded characters and the input after the closing quote. -/
def pStrBody : List Char → Option (List Char × List Char)
  | [] => none
  | c :: rest =>
    if c == '"' then some ([], rest)
    else if c == '\\' then
      match rest with
      | 'u' :: a :: b :: c' :: d :: rest' =>
        (hexVal a).bind fun ha =>
        (hexVal b).bind fun hb =>
        (hexVal c').bind fun hc =>
        (hexVal d).bind fun hd =>
        (pStrBody rest').map fun sr =>
          (Char.ofNat (((ha * 16 + hb) * 16 + hc) * 16 + hd) :: sr.1, sr.2)
      | e :: rest' =>
        (unescChar e).bind fun ch => (pStrBody rest').map fun sr => (ch :: sr.1, sr.2)
      | [] => none
    else if c.toNat < 32 then none
    else (pStrBody rest).map fun sr => (c :: sr.1, sr.2)

def digitsToNat (ds : List Char) : Nat := ds.foldl (fun a c => 10 * a + (c.toNat - 48)) 0

/-- Parses a maximal run of decimal digits. -/
def pNum (cs : List Char) : Option (Nat × List Char) :=
  let ds := cs.takeWhile (·.isDigit)
  if ds.isEmpty then none else some (digitsToNat ds, cs.dropWhile (·.isDigit))

mutual

/-- Parses one JSON value; returns it with the unconsumed input. -/
def pV : Nat → List Char → Option (JVal × List Char)
  | 0, _ => none
  | fuel + 1, cs =>
    match skipWs cs with
    | [] => none
    | c :: rest =>
      if c == '"' then
        (pStrBody rest).map fun sr => (JVal.str (String.mk sr.1), sr.2)
      else if c == 'n' then
        match rest with
        | 'u' :: 'l' :: 'l' :: r => some (.jnull, r)
        | _ => none
      else if c == '[' then
        if (skipWs rest).head? == some ']' then some (.arr [], (skipWs rest).tail)
        else (pArrElems fuel rest).map fun er => (JVal.arr er.1, er.2)
      else if c == '{' then
        if (skipWs rest).head? == some '}' then some (.obj [], (skipWs rest).tail)
        else (pObjFields fuel rest).map fun fr => (JVal.obj fr.1, fr.2)
      else if c.isDigit then
        (pNum (c :: rest)).map fun nr => (JVal.num nr.1, nr.2)
      else none

/-- Parses the elements of a non-empty array up to and over the closing
bracket. -/
def pArrElems : Nat → List Char → Option (List JVal × List Char)
  | 0, _ => none
  | fuel + 1, cs =>
    (pV fuel cs).bind fun vr =>
      match skipWs vr.2 with
      | ',' :: r2 => (pArrElems fuel r2).map fun er => (vr.1 :: er.1, er.2)
      | ']' :: r2 => some ([vr.1], r2)
      | _ => none

/-- Parses the members of a non-empty object up to and over the closing
brace. -/
def pObjFields : Nat → List Char → Option (List (String × JVal) × List Char)
  | 0, _ => none
  | fuel + 1, cs =>
    match skipWs cs with
    | '"' :: rest =>
      (pStrBody rest).bind fun kr =>
        match skipWs kr.2 with
        | ':' :: r2 =>
          (pV fuel r2).bind fun vr =>
            match skipWs vr.2 with
            | ',' :: r4 =>
              (pObjFields fuel r4).map fun fr => ((String.mk kr.1, vr.1) :: fr.1, fr.2)
            | '}' :: r4 => some ([(String.mk kr.1, vr.1)], r4)
            | _ => none
        | _ => none
    | _ => none

end

/-- A whole-input JSON parse with the canonical fuel budget. -/
def jsonParse (s : String) : Option JVal :=
  match pV (s.length + 1) s.data with
  | some (v, rest) => if (skipWs rest).isEmpty then some v else none
  | none => none

mutual

/-- A JS value with no `undefined` anywhere — the shape of every
well-formed `AggregatedContext` and of everything `JSON.parse` can
produce. -/
def cleanV : JVal → Bool
  | .undef => false
  | .arr es => cleanElems es
  | .obj fs => cleanFields fs
  | _ => true

def cleanElems : List JVal → Bool
  | [] => true
  | e :: rest => cleanV e && cleanElems rest

def cleanFields : List (String × JVal) → Bool
  | [] => true
  | (_, v) :: rest => cleanV v && cleanFields rest

end

mutual

/-- An `AggregatedContext` in the data-model sense: nested insertion-ordered
mappings whose leaves are strings. -/
def isCtx : JVal → Bool
  | .obj fs => isCtxFields fs
  | _ => false

def isCtxFields : List (String × JVal) → Bool
  | [] => true
  | (_, .str _) :: rest => isCtxFields rest
  | (_, .obj fs) :: rest => isCtxFields fs && isCtxFields rest
  | (_, _) :: _ => false

end

/-- Input whose head cannot extend a decimal literal. -/
def ndsB : List Char → Bool
  | [] => true
  | c :: _ => !c.isDigit

def wsOnly (cs : List Char) : Bool := cs.all isWs

mutual

/-- Fuel sufficient for `pV` on the printed form of a value. -/
def needV : JVal → Nat
  | .arr es => needElems es + 1
  | .obj fs => needFields fs + 1
  | _ => 1

def needElems : List JVal → Nat
  | [] => 0
  | e :: rest => max (needV e) (needElems rest) + 1

def needFields : List (String × JVal) → Nat
  | [] => 0
  | (_, v) :: rest => max (needV v) (needFields rest) + 1

end

/-- The scope/target validation of `main` followed by build and render: a
missing required target is reported (and the process exits) before
`buildContext` performs any Entry Store access. -/
def mainRun (st : Store) (now : String) (opts : ContextOptions) : Tr String :=
  if (opts.scope == "package" || opts.scope == "application") && opts.target.isNone then
    ([], .error ("Error: --target is required for scope " ++ opts.scope))
  else
    Tr.bind (buildContext st now opts) (fun r => ([], formatOutput r.1 r.2 opts))

/-! ## The Structure Validator (`scripts/validate-structure.ts`)

The ground-truth component list produced by `scanProjectPackages` and the
two partition listings produced by `scanPromptPackages` are inputs; the
validation logic over them is embedded as written: per-component expected
paths, loop counters for found/missing entries, an orphan scan over the
prompt-path set, and an overall exit status from the two counters. -/

inductive PkgType where
  | package
  | application
deriving DecidableEq

structure PackageInfo where
  name : String
  ptype : PkgType
deriving DecidableEq

/-- Expected Entry Store location of one component's prompts. -/
def expectedPath (p : PackageInfo) : String :=
  match p.ptype with
  | .package => "src/packages/" ++ p.name
  | .application => "src/applications/" ++ p.name

/-- JS `Set.add`: keeps insertion order, ignores duplicates. -/
def setAdd (l : List String) (x : String) : List String :=
  if x ∈ l then l else l ++ [x]

/-- `scanPromptPackages()`: the `src/packages/*` paths followed by the
`src/applications/*` paths, as an insertion-ordered set. -/
def promptSet (storePkgs storeApps : List String) : List String :=
  (storeApps.map (fun n => "src/applications/" ++ n)).foldl setAdd
    ((storePkgs.map (fun n => "src/packages/" ++ n)).foldl setAdd [])

def lastSegChars : List Char → List Char → List Char
  | [], acc => acc.reverse
  | c :: rest, acc => if c == '/' then lastSegChars rest [] else lastSegChars rest (c :: acc)

/-- `pathParts[pathParts.length - 1]` after `split('/')`. -/
def lastSeg (path : String) : String := String.mk (lastSegChars path.data [])

structure ValidationReport where
  found : Nat
  missingCount : Nat
  orphanedCount : Nat
  missing : List String
  orphaned : List String
  success : Bool
deriving DecidableEq

/-- `validatePromptStructure()`: `missing` collects the components logged
as `Missing`, `orphaned` the prompt paths logged as orphaned; the exit
status is success exactly when both loop counters stayed zero. -/
def validatePromptStructure (projectPackages : List PackageInfo)
    (storePkgs storeApps : List String) : ValidationReport :=
  let promptPackages := promptSet storePkgs storeApps
  let foundCount := projectPackages.foldl
    (fun n p => if expectedPath p ∈ promptPackages then n + 1 else n) 0
  let missingCount := projectPackages.foldl
    (fun n p => if expectedPath p ∈ promptPackages then n else n + 1) 0
  let missing := (projectPackages.filter (fun p => expectedPath p ∉ promptPackages)).map (·.name)
  let projectNames := projectPackages.map (·.name)
  let orphaned := promptPackages.filter (fun path => lastSeg path ∉ projectNames)
  let orphanedCount := promptPackages.foldl
    (fun n path => if lastSeg path ∈ projectNames then n else n + 1) 0
  { found := foundCount, missingCount := missingCount, orphanedCount := orphanedCount,
    missing := missing, orphaned := orphaned,
    success := missingCount == 0 && orphanedCount == 0 }

/-! ## `ContextBuilder` under a heap model

`build()` returns `{ ...this.context }`, a fresh top-level object.  To make
the aliasing consequences of that copy provable, builder states carry an
explicit heap of allocated top-level objects: `ctxAddr` is the address
`this.context` currently holds, allocation appends at a fresh address, and
mutation writes through an address.  The `PackagePrompts` values bound in
a top-level object are never mutated by the class, so they stay pure. -/

abbrev TopObj := List (String × PromptObj)

structure BuilderState where
  heap : List (Nat × TopObj)
  next : Nat
  ctxAddr : Nat

def heapGet (h : List (Nat × TopObj)) (a : Nat) : Option TopObj :=
  match h with
  | [] => none
  | (a₀, o) :: rest => if a₀ == a then some o else heapGet rest a

def heapSet : List (Nat × TopObj) → Nat → TopObj → List (Nat × TopObj)
  | [], _, _ => []
  | (a₀, o₀) :: rest, a, o =>
    if a₀ == a then (a₀, o) :: rest else (a₀, o₀) :: heapSet rest a o

/-- `createContextBuilder()`: a builder whose `context` field holds a fresh
empty object. -/
def createContextBuilder : BuilderState :=
  { heap := [(0, [])], next := 1, ctxAddr := 0 }

namespace ContextBuilder

/-- `load(name)`: `this.context[name] = getPrompts(name)`.  A throwing
`getPrompts` leaves the builder unchanged and reports the error. -/
def load (st : Store) (σ : BuilderState) (name : String) : BuilderState × Option String :=
  match getPrompts st name with
  | .error e => (σ, some e)
  | .ok p =>
    match heapGet σ.heap σ.ctxAddr with
    | none => (σ, none)
    | some o => ({ σ with heap := heapSet σ.heap σ.ctxAddr (objSet o name p) }, none)

/-- `loadMany(...names)`: loads in order; a thrown error propagates,
keeping the mutations already performed. -/
def loadMany (st : Store) (σ : BuilderState) : List String → BuilderState × Option String
  | [] => (σ, none)
  | n :: ns =>
    match load st σ n with
    | (σ', none) => loadMany st σ' ns
    | (σ', some e) => (σ', some e)

/-- `loadAll()`: loads every name `listAll()` returns. -/
def loadAll (st : Store) (σ : BuilderState) : BuilderState × Option String :=
  loadMany st σ (listAll st)

/-- `build()`: returns `{ ...this.context }` — a copy of the current
top-level object at a fresh address. -/
def build (σ : BuilderState) : Nat × BuilderState :=
  (σ.next,
    { heap := σ.heap ++ [(σ.next, (heapGet σ.heap σ.ctxAddr).getD [])],
      next := σ.next + 1, ctxAddr := σ.ctxAddr })

/-- `clear()`: `this.context = {}` rebinds the field to a fresh empty
object; the old object is unreferenced but untouched. -/
def clear (σ : BuilderState) : BuilderState :=
  { heap := σ.heap ++ [(σ.next, [])], next := σ.next + 1, ctxAddr := σ.next }

end ContextBuilder

/-- One method call of the claim's "subsequent load, loadMany, loadAll, or
clear" vocabulary. -/
inductive BuilderCall where
  | load (name : String)
  | loadMany (names : List String)
  | loadAll
  | clear

def stepCall (st : Store) (σ : BuilderState) : BuilderCall → BuilderState × Option String
  | .load n => ContextBuilder.load st σ n
  | .loadMany ns => ContextBuilder.loadMany st σ ns
  | .loadAll => ContextBuilder.loadAll st σ
  | .clear => (ContextBuilder.clear σ, none)

/-- Runs a call sequence; a thrown call aborts the remainder. -/
def runCalls (st : Store) : List BuilderCall → BuilderState → BuilderState
  | [], σ => σ
  | c :: cs, σ =>
    match stepCall st σ c with
    | (σ', none) => runCalls st cs σ'
    | (σ', some _) => σ'

/-! ## Round-trip of the structured-data variant: auxiliary lemmas -/

theorem digitToChar_facts (d : Nat) (h : d < 10) :
    (digitToChar d == '"') = false ∧ (digitToChar d == 'n') = false ∧
    (digitToChar d == '[') = false ∧ (digitToChar d == '{') = false ∧
    (digitToChar d).isDigit = true ∧ isWs (digitToChar d) = false ∧
    (digitToChar d == ']') = false ∧ (digitToChar d == '}') = false := by
  interval_cases d <;> decide

theorem digitToChar_toNat (d : Nat) (h : d < 10) : (digitToChar d).toNat - 48 = d := by
  interval_cases d <;> decide

theorem hexVal_hexChar (d : Nat) (h : d < 16) : hexVal (hexChar d) = some d := by
  interval_cases d <;> decide

/-- The decimal print of a number starts with a digit character and
consists of digit characters. -/
theorem natChars_head (n : Nat) : ∃ d t, natChars n = digitToChar d :: t ∧ d < 10 := by
  unfold natChars
  by_cases h : n = 0
  · exact ⟨0, [], by rw [if_pos h]; rfl, by omega⟩
  · rw [if_neg h]
    have hne : (Nat.digits 10 n).reverse ≠ [] := by
      simp [Nat.digits_ne_nil_iff_ne_zero, h]
    obtain ⟨d, ds, hds⟩ := List.exists_cons_of_ne_nil hne
    refine ⟨d, ds.map digitToChar, by rw [hds]; rfl, ?_⟩
    have : d ∈ Nat.digits 10 n := by
      rw [← List.mem_reverse, hds]
      exact List.mem_cons_self _ _
    exact Nat.digits_lt_base (by norm_num) this

theorem natChars_digit (n : Nat) : ∀ c ∈ natChars n, c.isDigit = true := by
  intro c hc
  unfold natChars at hc
  by_cases h : n = 0
  · rw [if_pos h] at hc
    simp at hc
    subst hc
    decide
  · rw [if_neg h] at hc
    simp only [List.mem_map, List.mem_reverse] at hc
    obtain ⟨d, hd, rfl⟩ := hc
    exact (digitToChar_facts d (Nat.digits_lt_base (by norm_num) hd)).2.2.2.2.1

theorem natChars_ne_nil (n : Nat) : natChars n ≠ [] := by
  obtain ⟨d, t, hdt, _⟩ := natChars_head n
  simp [hdt]

theorem digits_run (l rest : List Char) (hl : ∀ c ∈ l, c.isDigit = true)
    (hr : ndsB rest = true) :
    (l ++ rest).takeWhile (·.isDigit) = l ∧ (l ++ rest).dropWhile (·.isDigit) = rest := by
  induction l with
  | nil =>
    cases rest with
    | nil => simp
    | cons c t =>
      simp only [ndsB, Bool.not_eq_true'] at hr
      simp [List.takeWhile, List.dropWhile, hr]
  | cons c t ih =>
    have hc := hl c (List.mem_cons_self _ _)
    have := ih fun x hx => hl x (List.mem_cons_of_mem _ hx)
    simp [List.takeWhile, List.dropWhile, hc, this.1, this.2]

theorem foldl_digit_chars (ds : List Nat) (hd : ∀ d ∈ ds, d < 10) : ∀ (a : Nat),
    (ds.reverse.map digitToChar).foldl (fun acc c => 10 * acc + (c.toNat - 48)) a =
      a * 10 ^ ds.length + Nat.ofDigits 10 ds := by
  induction ds with
  | nil =>
    intro a
    simp [Nat.ofDigits]
  | cons d t ih =>
    intro a
    have hd10 : d < 10 := hd d (List.mem_cons_self _ _)
    simp only [List.reverse_cons, List.map_append, List.foldl_append, List.map_cons,
      List.map_nil, List.foldl_cons, List.foldl_nil]
    rw [ih fun x hx => hd x (List.mem_cons_of_mem _ hx)]
    rw [digitToChar_toNat d hd10, Nat.ofDigits_cons, List.length_cons]
    ring

theorem digitsToNat_natChars (n : Nat) : digitsToNat (natChars n) = n := by
  by_cases h : n = 0
  · subst h
    decide
  · unfold digitsToNat natChars
    rw [if_neg h]
    rw [foldl_digit_chars (Nat.digits 10 n)
      (fun d hd => Nat.digits_lt_base (by norm_num) hd) 0]
    simp [Nat.ofDigits_digits]

theorem pNum_natChars (n : Nat) (rest : List Char) (hr : ndsB rest = true) :
    pNum (natChars n ++ rest) = some (n, rest) := by
  unfold pNum
  obtain ⟨h1, h2⟩ := digits_run (natChars n) rest (natChars_digit n) hr
  simp only [h1, h2]
  rw [if_neg (by simp [natChars_ne_nil n])]
  rw [digitsToNat_natChars]

/-! ### Escaped string bodies parse back -/

theorem pStrBody_closing (X : List Char) : pStrBody ('"' :: X) = some ([], X) := by
  rw [pStrBody.eq_def]; rfl

theorem pStrBody_escQuote (X : List Char) :
    pStrBody ('\\' :: '"' :: X) = (pStrBody X).map fun sr => ('"' :: sr.1, sr.2) := by
  rw [pStrBody.eq_def]; rfl

theorem pStrBody_escBack (X : List Char) :
    pStrBody ('\\' :: '\\' :: X) = (pStrBody X).map fun sr => ('\\' :: sr.1, sr.2) := by
  rw [pStrBody.eq_def]; rfl

theorem pStrBody_escB (X : List Char) :
    pStrBody ('\\' :: 'b' :: X) =
      (pStrBody X).map fun sr => (Char.ofNat 8 :: sr.1, sr.2) := by
  rw [pStrBody.eq_def]; rfl

theorem pStrBody_escT (X : List Char) :
    pStrBody ('\\' :: 't' :: X) =
      (pStrBody X).map fun sr => (Char.ofNat 9 :: sr.1, sr.2) := by
  rw [pStrBody.eq_def]; rfl

theorem pStrBody_escN (X : List Char) :
    pStrBody ('\\' :: 'n' :: X) =
      (pStrBody X).map fun sr => (Char.ofNat 10 :: sr.1, sr.2) := by
  rw [pStrBody.eq_def]; rfl

theorem pStrBody_escF (X : List Char) :
    pStrBody ('\\' :: 'f' :: X) =
      (pStrBody X).map fun sr => (Char.ofNat 12 :: sr.1, sr.2) := by
  rw [pStrBody.eq_def]; rfl

theorem pStrBody_escR (X : List Char) :
    pStrBody ('\\' :: 'r' :: X) =
      (pStrBody X).map fun sr => (Char.ofNat 13 :: sr.1, sr.2) := by
  rw [pStrBody.eq_def]; rfl

theorem pStrBody_escU (a b c' d : Char) (X : List Char) :
    pStrBody ('\\' :: 'u' :: a :: b :: c' :: d :: X) =
      (hexVal a).bind fun ha =>
      (hexVal b).bind fun hb =>
      (hexVal c').bind fun hc =>
      (hexVal d).bind fun hd =>
      (pStrBody X).map fun sr =>
        (Char.ofNat (((ha * 16 + hb) * 16 + hc) * 16 + hd) :: sr.1, sr.2) := by
  rw [pStrBody.eq_def]; rfl

theorem pStrBody_plain (c : Char) (X : List Char) (h1 : (c == '"') = false)
    (h2 : (c == '\\') = false) (h3 : ¬ c.toNat < 32) :
    pStrBody (c :: X) = (pStrBody X).map fun sr => (c :: sr.1, sr.2) := by
  rw [pStrBody.eq_def]
  simp only [h1, h2, Bool.false_eq_true, if_false, if_neg h3]

theorem pStrBody_esc (cs : List Char) : ∀ (rest : List Char),
    pStrBody ((cs.map escChar).flatten ++ '"' :: rest) = some (cs, rest) := by
  induction cs with
  | nil =>
    intro rest
    simp only [List.map_nil, List.flatten_nil, List.nil_append]
    exact pStrBody_closing rest
  | cons c t ih =>
    intro rest
    simp only [List.map_cons, List.flatten_cons, List.append_assoc]
    by_cases h1 : c == '"'
    · rw [show escChar c = ['\\', '"'] from by unfold escChar; rw [if_pos h1]]
      rw [List.cons_append, List.cons_append, List.nil_append, pStrBody_escQuote, ih, Option.map_some']
      rw [show c = '"' from beq_iff_eq.mp h1]
    · by_cases h2 : c == '\\'
      · rw [show escChar c = ['\\', '\\'] from by unfold escChar; rw [if_neg h1, if_pos h2]]
        rw [List.cons_append, List.cons_append, List.nil_append, pStrBody_escBack, ih, Option.map_some']
        rw [show c = '\\' from beq_iff_eq.mp h2]
      · by_cases h3 : c.toNat == 8
        · rw [show escChar c = ['\\', 'b'] from by
            unfold escChar; rw [if_neg h1, if_neg h2, if_pos h3]]
          rw [List.cons_append, List.cons_append, List.nil_append, pStrBody_escB, ih, Option.map_some']
          rw [show Char.ofNat 8 = c from by
            rw [show (8 : Nat) = c.toNat from (beq_iff_eq.mp h3).symm,
              Char.ofNat_toNat]]
        · by_cases h4 : c.toNat == 9
          · rw [show escChar c = ['\\', 't'] from by
              unfold escChar; rw [if_neg h1, if_neg h2, if_neg h3, if_pos h4]]
            rw [List.cons_append, List.cons_append, List.nil_append, pStrBody_escT, ih, Option.map_some']
            rw [show Char.ofNat 9 = c from by
              rw [show (9 : Nat) = c.toNat from (beq_iff_eq.mp h4).symm,
                Char.ofNat_toNat]]
          · by_cases h5 : c.toNat == 10
            · rw [show escChar c = ['\\', 'n'] from by
                unfold escChar; rw [if_neg h1, if_neg h2, if_neg h3, if_neg h4, if_pos h5]]
              rw [List.cons_append, List.cons_append, List.nil_append, pStrBody_escN, ih, Option.map_some']
              rw [show Char.ofNat 10 = c from by
                rw [show (10 : Nat) = c.toNat from (beq_iff_eq.mp h5).symm,
                  Char.ofNat_toNat]]
            · by_cases h6 : c.toNat == 12
              · rw [show escChar c = ['\\', 'f'] from by
                  unfold escChar
                  rw [if_neg h1, if_neg h2, if_neg h3, if_neg h4, if_neg h5, if_pos h6]]
                rw [List.cons_append, List.cons_append, List.nil_append, pStrBody_escF, ih, Option.map_some']
                rw [show Char.ofNat 12 = c from by
                  rw [show (12 : Nat) = c.toNat from (beq_iff_eq.mp h6).symm,
                    Char.ofNat_toNat]]
              · by_cases h7 : c.toNat == 13
                · rw [show escChar c = ['\\', 'r'] from by
                    unfold escChar
                    rw [if_neg h1, if_neg h2, if_neg h3, if_neg h4, if_neg h5, if_neg h6,
                      if_pos h7]]
                  rw [List.cons_append, List.cons_append, List.nil_append, pStrBody_escR, ih, Option.map_some']
                  rw [show Char.ofNat 13 = c from by
                    rw [show (13 : Nat) = c.toNat from (beq_iff_eq.mp h7).symm,
                      Char.ofNat_toNat]]
                · by_cases h8 : c.toNat < 32
                  · rw [show escChar c =
                        ['\\', 'u', '0', '0', hexChar (c.toNat / 16), hexChar (c.toNat % 16)]
                      from by
                      unfold escChar
                      rw [if_neg h1, if_neg h2, if_neg h3, if_neg h4, if_neg h5, if_neg h6,
                        if_neg h7, if_pos h8]]
                    simp only [List.cons_append, List.nil_append]
                    rw [pStrBody_escU]
                    rw [show hexVal '0' = some 0 from rfl]
                    rw [hexVal_hexChar _ (by omega : c.toNat / 16 < 16),
                      hexVal_hexChar _ (by omega : c.toNat % 16 < 16)]
                    simp only [Option.some_bind]
                    rw [ih, Option.map_some']
                    rw [show ((0 * 16 + 0) * 16 + c.toNat / 16) * 16 + c.toNat % 16 =
                      c.toNat from by omega, Char.ofNat_toNat]
                  · rw [show escChar c = [c] from by
                      unfold escChar
                      rw [if_neg h1, if_neg h2, if_neg h3, if_neg h4, if_neg h5, if_neg h6,
                        if_neg h7, if_neg h8]]
                    rw [List.cons_append, List.nil_append,
                      pStrBody_plain c _ (by simpa using h1) (by simpa using h2) h8,
                      ih, Option.map_some']

/-! ### Whitespace handling -/

theorem skipWs_not_ws (c : Char) (t : List Char) (h : isWs c = false) :
    skipWs (c :: t) = c :: t := by
  simp [skipWs, List.dropWhile_cons, h]

theorem skipWs_ws_append (pre : List Char) (hws : wsOnly pre = true) (cs : List Char) :
    skipWs (pre ++ cs) = skipWs cs := by
  induction pre with
  | nil => rfl
  | cons c t ih =>
    simp only [wsOnly, List.all_cons, Bool.and_eq_true] at hws
    simp only [List.cons_append, skipWs, List.dropWhile_cons, hws.1, if_true]
    exact ih (by simp [wsOnly, hws.2])

theorem indent_wsOnly (d : Nat) : wsOnly (indent d) = true := by
  simp only [wsOnly, indent, List.all_eq_true]
  intro c hc
  rw [List.eq_of_mem_replicate hc]
  decide

theorem ws_not_digit (c : Char) (h : isWs c = true) : c.isDigit = false := by
  simp only [isWs, Bool.or_eq_true, beq_iff_eq] at h
  rcases h with ((rfl | rfl) | rfl) | rfl <;> decide

theorem ndsB_ws_append (post : List Char) (hws : wsOnly post = true) (c : Char)
    (hc : c.isDigit = false) (rest : List Char) :
    ndsB (post ++ c :: rest) = true := by
  cases post with
  | nil => simp [ndsB, hc]
  | cons w t =>
    simp only [wsOnly, List.all_cons, Bool.and_eq_true] at hws
    simp [ndsB, ws_not_digit w hws.1]

theorem pV_ws (fuel : Nat) (pre cs : List Char) (h : wsOnly pre = true) :
    pV fuel (pre ++ cs) = pV fuel cs := by
  cases fuel with
  | zero => rfl
  | succ f => simp only [pV, skipWs_ws_append pre h]

theorem pObjFields_ws (fuel : Nat) (pre cs : List Char) (h : wsOnly pre = true) :
    pObjFields fuel (pre ++ cs) = pObjFields fuel cs := by
  cases fuel with
  | zero => rfl
  | succ f => simp only [pObjFields, skipWs_ws_append pre h]

theorem pArrElems_ws (fuel : Nat) (pre cs : List Char) (h : wsOnly pre = true) :
    pArrElems fuel (pre ++ cs) = pArrElems fuel cs := by
  cases fuel with
  | zero => rfl
  | succ f => simp only [pArrElems, pV_ws f pre cs h]

/-! ### The minified print of a clean value parses back -/

theorem mk_data (s : String) : String.mk s.data = s := rfl

theorem someBeq (a b : Char) : (some a == some b) = (a == b) := rfl

theorem needV_pos (v : JVal) : 1 ≤ needV v := by
  cases v <;> first
    | exact le_refl 1
    | exact Nat.succ_le_succ (Nat.zero_le _)

theorem clean_not_undef (v : JVal) (h : cleanV v = true) : v.isUndef = false := by
  cases v
  case undef => simp [cleanV] at h
  all_goals rfl

theorem cleanFields_any (fs : List (String × JVal)) (h : cleanFields fs = true) :
    (fs.any fun kv => !kv.2.isUndef) = !fs.isEmpty := by
  cases fs with
  | nil => rfl
  | cons kv fs' =>
    obtain ⟨k, v⟩ := kv
    have h' : (cleanV v && cleanFields fs') = true := h
    have h2 : cleanV v = true ∧ cleanFields fs' = true := by simpa using h'
    simp [clean_not_undef v h2.1]

theorem minVal_head (v : JVal) : ∃ c t, minVal v = c :: t ∧ isWs c = false ∧
    (c == ']') = false ∧ (c == '}') = false := by
  cases v with
  | jnull => exact ⟨'n', _, rfl, rfl, rfl, rfl⟩
  | undef => exact ⟨'n', _, rfl, rfl, rfl, rfl⟩
  | str s => exact ⟨'"', _, rfl, rfl, rfl, rfl⟩
  | num n =>
    obtain ⟨d, t, hdt, hd10⟩ := natChars_head n
    obtain ⟨_, _, _, _, _, f6, f7, f8⟩ := digitToChar_facts d hd10
    exact ⟨digitToChar d, t, by show natChars n = _; rw [hdt], f6, f7, f8⟩
  | arr es => exact ⟨'[', _, rfl, rfl, rfl, rfl⟩
  | obj fs => exact ⟨'{', _, rfl, rfl, rfl, rfl⟩

mutual

theorem rtMinV : ∀ (v : JVal) (fuel : Nat) (rest : List Char), cleanV v = true →
    ndsB rest = true → needV v ≤ fuel → pV fuel (minVal v ++ rest) = some (v, rest)
  | .undef, fuel, rest, hc, hr, hf => by simp [cleanV] at hc
  | .jnull, fuel, rest, hc, hr, hf => by
    cases fuel with
    | zero => have := needV_pos JVal.jnull; omega
    | succ f => rfl
  | .str s, fuel, rest, hc, hr, hf => by
    cases fuel with
    | zero => have := needV_pos (JVal.str s); omega
    | succ f =>
      have h1 : minVal (JVal.str s) ++ rest =
          '"' :: ((s.data.map escChar).flatten ++ '"' :: rest) := by
        show ('"' :: ((s.data.map escChar).flatten ++ ['"'])) ++ rest = _
        simp [List.append_assoc]
      rw [h1]
      have h2 : pV (f + 1) ('"' :: ((s.data.map escChar).flatten ++ '"' :: rest)) =
          (pStrBody ((s.data.map escChar).flatten ++ '"' :: rest)).map
            fun sr => (JVal.str (String.mk sr.1), sr.2) := rfl
      rw [h2, pStrBody_esc, Option.map_some']
  | .num n, fuel, rest, hc, hr, hf => by
    cases fuel with
    | zero => have := needV_pos (JVal.num n); omega
    | succ f =>
      obtain ⟨d, t, hdt, hd10⟩ := natChars_head n
      obtain ⟨f1, f2, f3, f4, f5, f6, f7, f8⟩ := digitToChar_facts d hd10
      have h1 : minVal (JVal.num n) ++ rest = digitToChar d :: (t ++ rest) := by
        show natChars n ++ rest = _
        rw [hdt]
        rfl
      rw [h1]
      have h2 : pV (f + 1) (digitToChar d :: (t ++ rest)) =
          (pNum (digitToChar d :: (t ++ rest))).map fun nr => (JVal.num nr.1, nr.2) := by
        simp only [pV]
        rw [skipWs_not_ws _ _ f6]
        simp only [f1, f2, f3, f4, f5, Bool.false_eq_true, if_false, if_true]
      rw [h2]
      rw [show digitToChar d :: (t ++ rest) = natChars n ++ rest from by rw [hdt]; rfl]
      rw [pNum_natChars n rest hr]
      rfl
  | .arr [], fuel, rest, hc, hr, hf => by
    cases fuel with
    | zero => have := needV_pos (JVal.arr []); omega
    | succ f => rfl
  | .arr (e :: es'), fuel, rest, hc, hr, hf => by
      cases fuel with
      | zero => have := needV_pos (JVal.arr (e :: es')); omega
      | succ f =>
        have hce : cleanElems (e :: es') = true := hc
        have hf' : needElems (e :: es') ≤ f := by
          have : needElems (e :: es') + 1 ≤ f + 1 := hf
          omega
        obtain ⟨c0, t0, hm, hws0, hbr0, hbc0⟩ := minVal_head e
        have hXeq : minVal (JVal.arr (e :: es')) ++ rest =
            '[' :: (minElems (e :: es') ++ ']' :: rest) := by
          show ('[' :: (minElems (e :: es') ++ [']'])) ++ rest = _
          simp [List.append_assoc]
        rw [hXeq]
        have step : pV (f + 1) ('[' :: (minElems (e :: es') ++ ']' :: rest)) =
            if (skipWs (minElems (e :: es') ++ ']' :: rest)).head? == some ']' then
              some (JVal.arr [], (skipWs (minElems (e :: es') ++ ']' :: rest)).tail)
            else (pArrElems f (minElems (e :: es') ++ ']' :: rest)).map
              fun er => (JVal.arr er.1, er.2) := rfl
        rw [step]
        have hpeek : (skipWs (minElems (e :: es') ++ ']' :: rest)).head? = some c0 := by
          rw [show minElems (e :: es') ++ ']' :: rest =
            c0 :: (t0 ++ ((if es'.isEmpty then [] else ',' :: minElems es') ++ ']' :: rest))
            from by
              rw [show minElems (e :: es') =
                minVal e ++ (if es'.isEmpty then [] else ',' :: minElems es') from rfl, hm]
              simp [List.append_assoc]]
          rw [skipWs_not_ws _ _ hws0]
          rfl
        rw [hpeek, someBeq, hbr0]
        simp only [Bool.false_eq_true, if_false]
        rw [rtMinElems (e :: es') f rest (by simp) hce hf']
        rfl
  | .obj [], fuel, rest, hc, hr, hf => by
    cases fuel with
    | zero => have := needV_pos (JVal.obj []); omega
    | succ f => rfl
  | .obj ((k, w) :: fs'), fuel, rest, hc, hr, hf => by
      cases fuel with
      | zero => have := needV_pos (JVal.obj ((k, w) :: fs')); omega
      | succ f =>
        have hcf : cleanFields ((k, w) :: fs') = true := hc
        have hcv : cleanV w = true := by
          have h' : (cleanV w && cleanFields fs') = true := hc
          have h2 : cleanV w = true ∧ cleanFields fs' = true := by simpa using h'
          exact h2.1
        have hundef : w.isUndef = false := clean_not_undef w hcv
        have hf' : needFields ((k, w) :: fs') ≤ f := by
          have : needFields ((k, w) :: fs') + 1 ≤ f + 1 := hf
          omega
        have e2 : minFields ((k, w) :: fs') =
            quoteStr k ++ ':' :: minVal w ++
              (if fs'.any (fun kv => !kv.2.isUndef) then ',' :: minFields fs' else []) := by
          simp only [minFields, hundef, Bool.false_eq_true, if_false]
        have hXeq : minVal (JVal.obj ((k, w) :: fs')) ++ rest =
            '{' :: (minFields ((k, w) :: fs') ++ '}' :: rest) := by
          show ('{' :: (minFields ((k, w) :: fs') ++ ['}'])) ++ rest = _
          simp [List.append_assoc]
        rw [hXeq]
        have step : pV (f + 1) ('{' :: (minFields ((k, w) :: fs') ++ '}' :: rest)) =
            if (skipWs (minFields ((k, w) :: fs') ++ '}' :: rest)).head? == some '}' then
              some (JVal.obj [], (skipWs (minFields ((k, w) :: fs') ++ '}' :: rest)).tail)
            else (pObjFields f (minFields ((k, w) :: fs') ++ '}' :: rest)).map
              fun fr => (JVal.obj fr.1, fr.2) := rfl
        rw [step]
        have hpeek : (skipWs (minFields ((k, w) :: fs') ++ '}' :: rest)).head? =
            some '"' := by
          rw [show minFields ((k, w) :: fs') ++ '}' :: rest =
            '"' :: ((k.data.map escChar).flatten ++ '"' :: ':' :: (minVal w ++
              ((if fs'.any (fun kv => !kv.2.isUndef) then ',' :: minFields fs' else []) ++
                '}' :: rest))) from by rw [e2]; simp [quoteStr, List.append_assoc]]
          rw [skipWs_not_ws _ _ (by decide)]
          rfl
        rw [hpeek]
        rw [show ((some '"' == some '}') : Bool) = false from rfl]
        simp only [Bool.false_eq_true, if_false]
        rw [rtMinFields ((k, w) :: fs') f rest (by simp) hcf hf']
        rfl
termination_by v fuel rest hc hr hf => sizeOf v

theorem rtMinElems (es : List JVal) (fuel : Nat) (rest : List Char) (hne : es ≠ [])
    (hc : cleanElems es = true) (hf : needElems es ≤ fuel) :
    pArrElems fuel (minElems es ++ ']' :: rest) = some (es, rest) := by
  cases es with
  | nil => exact absurd rfl hne
  | cons e es' =>
    cases fuel with
    | zero =>
      have h1 := needV_pos e
      have h2 : needElems (e :: es') = max (needV e) (needElems es') + 1 := rfl
      omega
    | succ f =>
      have hcv : cleanV e = true ∧ cleanElems es' = true := by
        have h' : (cleanV e && cleanElems es') = true := hc
        simpa using h'
      have hfm : max (needV e) (needElems es') + 1 ≤ f + 1 := hf
      obtain ⟨hfe, hfes⟩ := Nat.max_le.mp (Nat.le_of_succ_le_succ hfm)
      cases es' with
      | nil =>
        have hXeq : minElems [e] ++ ']' :: rest = minVal e ++ ']' :: rest := by
          show (minVal e ++ []) ++ ']' :: rest = _
          simp
        rw [hXeq]
        show (pV f (minVal e ++ ']' :: rest)).bind _ = some ([e], rest)
        rw [rtMinV e f (']' :: rest) hcv.1 rfl hfe]
        rfl
      | cons e2 es'' =>
        have hXeq : minElems (e :: e2 :: es'') ++ ']' :: rest =
            minVal e ++ ',' :: (minElems (e2 :: es'') ++ ']' :: rest) := by
          show (minVal e ++ (',' :: minElems (e2 :: es''))) ++ ']' :: rest = _
          simp [List.append_assoc]
        rw [hXeq]
        show (pV f (minVal e ++ ',' :: (minElems (e2 :: es'') ++ ']' :: rest))).bind _ =
          some (e :: e2 :: es'', rest)
        rw [rtMinV e f (',' :: (minElems (e2 :: es'') ++ ']' :: rest)) hcv.1 rfl hfe]
        show (pArrElems f (minElems (e2 :: es'') ++ ']' :: rest)).map
          (fun er => (e :: er.1, er.2)) = some (e :: e2 :: es'', rest)
        rw [rtMinElems (e2 :: es'') f rest (by simp) hcv.2 hfes]
        rfl
termination_by sizeOf es

theorem rtMinFields : ∀ (fs : List (String × JVal)) (fuel : Nat) (rest : List Char),
    fs ≠ [] → cleanFields fs = true → needFields fs ≤ fuel →
    pObjFields fuel (minFields fs ++ '}' :: rest) = some (fs, rest)
  | [], fuel, rest, hne, hc, hf => absurd rfl hne
  | (k, v) :: fs', fuel, rest, hne, hc, hf => by
    cases fuel with
    | zero =>
      have h1 := needV_pos v
      have h2 : needFields ((k, v) :: fs') = max (needV v) (needFields fs') + 1 := rfl
      omega
    | succ f =>
      have hcv : cleanV v = true ∧ cleanFields fs' = true := by
        have h' : (cleanV v && cleanFields fs') = true := hc
        simpa using h'
      have hundef : v.isUndef = false := clean_not_undef v hcv.1
      have hfm : max (needV v) (needFields fs') + 1 ≤ f + 1 := hf
      obtain ⟨hfv, hffs⟩ := Nat.max_le.mp (Nat.le_of_succ_le_succ hfm)
      have e2 : minFields ((k, v) :: fs') =
          quoteStr k ++ ':' :: minVal v ++
            (if fs'.any (fun kv => !kv.2.isUndef) then ',' :: minFields fs' else []) := by
        simp only [minFields, hundef, Bool.false_eq_true, if_false]
      cases fs' with
      | nil =>
        have hXeq : minFields [(k, v)] ++ '}' :: rest =
            '"' :: ((k.data.map escChar).flatten ++ '"' ::
              ':' :: (minVal v ++ '}' :: rest)) := by
          rw [e2]
          simp [quoteStr, List.append_assoc]
        rw [hXeq]
        show (pStrBody ((k.data.map escChar).flatten ++ '"' ::
            ':' :: (minVal v ++ '}' :: rest))).bind _ = some ([(k, v)], rest)
        rw [pStrBody_esc]
        show (pV f (minVal v ++ '}' :: rest)).bind _ = some ([(k, v)], rest)
        rw [rtMinV v f ('}' :: rest) hcv.1 rfl hfv]
        rfl
      | cons kv2 fs'' =>
        have hXeq : minFields ((k, v) :: kv2 :: fs'') ++ '}' :: rest =
            '"' :: ((k.data.map escChar).flatten ++ '"' ::
              ':' :: (minVal v ++ ',' :: (minFields (kv2 :: fs'') ++ '}' :: rest))) := by
          rw [e2, cleanFields_any (kv2 :: fs'') hcv.2]
          simp [quoteStr, List.append_assoc]
        rw [hXeq]
        show (pStrBody ((k.data.map escChar).flatten ++ '"' ::
            ':' :: (minVal v ++ ',' :: (minFields (kv2 :: fs'') ++ '}' :: rest)))).bind _ =
          some ((k, v) :: kv2 :: fs'', rest)
        rw [pStrBody_esc]
        show (pV f (minVal v ++ ',' :: (minFields (kv2 :: fs'') ++ '}' :: rest))).bind _ =
          some ((k, v) :: kv2 :: fs'', rest)
        rw [rtMinV v f (',' :: (minFields (kv2 :: fs'') ++ '}' :: rest)) hcv.1 rfl hfv]
        show (pObjFields f (minFields (kv2 :: fs'') ++ '}' :: rest)).map
          (fun fr => ((String.mk k.data, v) :: fr.1, fr.2)) =
          some ((k, v) :: kv2 :: fs'', rest)
        rw [rtMinFields (kv2 :: fs'') f rest (by simp) hcv.2 hffs]
        rfl
termination_by fs fuel rest hne hc hf => sizeOf fs

end

/-! ### The pretty print of a clean value parses back -/

theorem wsOnly_append (a b : List Char) (ha : wsOnly a = true) (hb : wsOnly b = true) :
    wsOnly (a ++ b) = true := by
  simp only [wsOnly, List.all_append, Bool.and_eq_true]
  exact ⟨ha, hb⟩

theorem wsOnly_nl_cons (l : List Char) (h : wsOnly l = true) :
    wsOnly ('\n' :: l) = true := by
  simp only [wsOnly, List.all_cons, Bool.and_eq_true]
  exact ⟨rfl, h⟩

theorem pVal_head (d : Nat) (v : JVal) : ∃ c t, pVal d v = c :: t ∧ isWs c = false ∧
    (c == ']') = false ∧ (c == '}') = false := by
  cases v with
  | jnull => exact ⟨'n', ['u', 'l', 'l'], by simp [pVal], rfl, rfl, rfl⟩
  | undef => exact ⟨'n', ['u', 'l', 'l'], by simp [pVal], rfl, rfl, rfl⟩
  | str s =>
    exact ⟨'"', (s.data.map escChar).flatten ++ ['"'], by simp [pVal, quoteStr],
      rfl, rfl, rfl⟩
  | num n =>
    obtain ⟨dg, t, hdt, hd10⟩ := natChars_head n
    obtain ⟨_, _, _, _, _, f6, f7, f8⟩ := digitToChar_facts dg hd10
    exact ⟨digitToChar dg, t, by rw [show pVal d (JVal.num n) = natChars n from
      by simp [pVal], hdt], f6, f7, f8⟩
  | arr es =>
    cases es with
    | nil => exact ⟨'[', [']'], by simp [pVal], rfl, rfl, rfl⟩
    | cons e es' =>
      exact ⟨'[', '\n' :: pElems (d + 1) (e :: es') ++ '\n' :: indent d ++ [']'],
        by simp [pVal], rfl, rfl, rfl⟩
  | obj fs =>
    cases hany : fs.any (fun kv => !kv.2.isUndef) with
    | true =>
      exact ⟨'{', '\n' :: pFields (d + 1) fs ++ '\n' :: indent d ++ ['}'],
        by simp [pVal, hany], rfl, rfl, rfl⟩
    | false =>
      exact ⟨'{', ['}'], by simp [pVal, hany], rfl, rfl, rfl⟩

mutual

theorem rtPV : ∀ (v : JVal) (d : Nat) (fuel : Nat) (rest : List Char), cleanV v = true →
    ndsB rest = true → needV v ≤ fuel → pV fuel (pVal d v ++ rest) = some (v, rest)
  | .undef, d, fuel, rest, hc, hr, hf => by simp [cleanV] at hc
  | .jnull, d, fuel, rest, hc, hr, hf => by
    cases fuel with
    | zero => have := needV_pos JVal.jnull; omega
    | succ f =>
      rw [show pVal d JVal.jnull = ['n', 'u', 'l', 'l'] from by simp [pVal]]
      rfl
  | .str s, d, fuel, rest, hc, hr, hf => by
    cases fuel with
    | zero => have := needV_pos (JVal.str s); omega
    | succ f =>
      have h1 : pVal d (JVal.str s) ++ rest =
          '"' :: ((s.data.map escChar).flatten ++ '"' :: rest) := by
        rw [show pVal d (JVal.str s) =
          '"' :: ((s.data.map escChar).flatten ++ ['"']) from by simp [pVal, quoteStr]]
        simp [List.append_assoc]
      rw [h1]
      have h2 : pV (f + 1) ('"' :: ((s.data.map escChar).flatten ++ '"' :: rest)) =
          (pStrBody ((s.data.map escChar).flatten ++ '"' :: rest)).map
            fun sr => (JVal.str (String.mk sr.1), sr.2) := rfl
      rw [h2, pStrBody_esc, Option.map_some']
  | .num n, d, fuel, rest, hc, hr, hf => by
    cases fuel with
    | zero => have := needV_pos (JVal.num n); omega
    | succ f =>
      obtain ⟨dg, t, hdt, hd10⟩ := natChars_head n
      obtain ⟨f1, f2, f3, f4, f5, f6, f7, f8⟩ := digitToChar_facts dg hd10
      have h1 : pVal d (JVal.num n) ++ rest = digitToChar dg :: (t ++ rest) := by
        rw [show pVal d (JVal.num n) = natChars n from by simp [pVal], hdt]
        rfl
      rw [h1]
      have h2 : pV (f + 1) (digitToChar dg :: (t ++ rest)) =
          (pNum (digitToChar dg :: (t ++ rest))).map fun nr => (JVal.num nr.1, nr.2) := by
        simp only [pV]
        rw [skipWs_not_ws _ _ f6]
        simp only [f1, f2, f3, f4, f5, Bool.false_eq_true, if_false, if_true]
      rw [h2]
      rw [show digitToChar dg :: (t ++ rest) = natChars n ++ rest from by rw [hdt]; rfl]
      rw [pNum_natChars n rest hr]
      rfl
  | .arr [], d, fuel, rest, hc, hr, hf => by
    cases fuel with
    | zero => have := needV_pos (JVal.arr []); omega
    | succ f =>
      rw [show pVal d (JVal.arr []) = ['[', ']'] from by simp [pVal]]
      rfl
  | .arr (e :: es'), d, fuel, rest, hc, hr, hf => by
    cases fuel with
    | zero => have := needV_pos (JVal.arr (e :: es')); omega
    | succ f =>
      have hce : cleanElems (e :: es') = true := hc
      have hf' : needElems (e :: es') ≤ f := by
        have : needElems (e :: es') + 1 ≤ f + 1 := hf
        omega
      obtain ⟨c0, t0, hm, hws0, hbr0, hbc0⟩ := pVal_head (d + 1) e
      have hXeq : pVal d (JVal.arr (e :: es')) ++ rest =
          '[' :: ('\n' :: (pElems (d + 1) (e :: es') ++
            ('\n' :: indent d ++ ']' :: rest))) := by
        rw [show pVal d (JVal.arr (e :: es')) =
          '[' :: '\n' :: pElems (d + 1) (e :: es') ++ '\n' :: indent d ++ [']']
          from by simp [pVal]]
        simp [List.append_assoc]
      rw [hXeq]
      have step : pV (f + 1) ('[' :: ('\n' :: (pElems (d + 1) (e :: es') ++
          ('\n' :: indent d ++ ']' :: rest)))) =
          if (skipWs ('\n' :: (pElems (d + 1) (e :: es') ++
              ('\n' :: indent d ++ ']' :: rest)))).head? == some ']' then
            some (JVal.arr [], (skipWs ('\n' :: (pElems (d + 1) (e :: es') ++
              ('\n' :: indent d ++ ']' :: rest)))).tail)
          else (pArrElems f ('\n' :: (pElems (d + 1) (e :: es') ++
            ('\n' :: indent d ++ ']' :: rest)))).map
            fun er => (JVal.arr er.1, er.2) := rfl
      rw [step]
      have hpeek : (skipWs ('\n' :: (pElems (d + 1) (e :: es') ++
          ('\n' :: indent d ++ ']' :: rest)))).head? = some c0 := by
        rw [show ('\n' :: (pElems (d + 1) (e :: es') ++
            ('\n' :: indent d ++ ']' :: rest)) : List Char) =
          ('\n' :: indent (d + 1)) ++ (c0 :: (t0 ++
            ((if es'.isEmpty then [] else ',' :: '\n' :: pElems (d + 1) es') ++
              ('\n' :: indent d ++ ']' :: rest)))) from by
          rw [show pElems (d + 1) (e :: es') = indent (d + 1) ++ pVal (d + 1) e ++
            (if es'.isEmpty then [] else ',' :: '\n' :: pElems (d + 1) es')
            from by simp [pElems], hm]
          simp [List.append_assoc]]
        rw [skipWs_ws_append _ (wsOnly_nl_cons _ (indent_wsOnly (d + 1)))]
        rw [skipWs_not_ws _ _ hws0]
        rfl
      rw [hpeek, someBeq, hbr0]
      simp only [Bool.false_eq_true, if_false]
      rw [show ('\n' :: (pElems (d + 1) (e :: es') ++
          ('\n' :: indent d ++ ']' :: rest)) : List Char) =
        ['\n'] ++ (pElems (d + 1) (e :: es') ++ (('\n' :: indent d) ++ ']' :: rest))
        from by simp [List.append_assoc]]
      rw [rtPElems (e :: es') (d + 1) f ['\n'] ('\n' :: indent d) rest (by simp) hce
        (by decide) (wsOnly_nl_cons _ (indent_wsOnly d)) hf']
      rfl
  | .obj [], d, fuel, rest, hc, hr, hf => by
    cases fuel with
    | zero => have := needV_pos (JVal.obj []); omega
    | succ f =>
      rw [show pVal d (JVal.obj []) = ['{', '}'] from by simp [pVal]]
      rfl
  | .obj ((k, w) :: fs'), d, fuel, rest, hc, hr, hf => by
    cases fuel with
    | zero => have := needV_pos (JVal.obj ((k, w) :: fs')); omega
    | succ f =>
      have hcf : cleanFields ((k, w) :: fs') = true := hc
      have hcv : cleanV w = true := by
        have h' : (cleanV w && cleanFields fs') = true := hc
        have h2 : cleanV w = true ∧ cleanFields fs' = true := by simpa using h'
        exact h2.1
      have hany : ((k, w) :: fs').any (fun kv => !kv.2.isUndef) = true := by
        rw [cleanFields_any _ hcf]
        rfl
      have hf' : needFields ((k, w) :: fs') ≤ f := by
        have : needFields ((k, w) :: fs') + 1 ≤ f + 1 := hf
        omega
      have hXeq : pVal d (JVal.obj ((k, w) :: fs')) ++ rest =
          '{' :: ('\n' :: (pFields (d + 1) ((k, w) :: fs') ++
            ('\n' :: indent d ++ '}' :: rest))) := by
        rw [show pVal d (JVal.obj ((k, w) :: fs')) =
          '{' :: '\n' :: pFields (d + 1) ((k, w) :: fs') ++ '\n' :: indent d ++ ['}']
          from by simp [pVal, hany]]
        simp [List.append_assoc]
      rw [hXeq]
      have step : pV (f + 1) ('{' :: ('\n' :: (pFields (d + 1) ((k, w) :: fs') ++
          ('\n' :: indent d ++ '}' :: rest)))) =
          if (skipWs ('\n' :: (pFields (d + 1) ((k, w) :: fs') ++
              ('\n' :: indent d ++ '}' :: rest)))).head? == some '}' then
            some (JVal.obj [], (skipWs ('\n' :: (pFields (d + 1) ((k, w) :: fs') ++
              ('\n' :: indent d ++ '}' :: rest)))).tail)
          else (pObjFields f ('\n' :: (pFields (d + 1) ((k, w) :: fs') ++
            ('\n' :: indent d ++ '}' :: rest)))).map
            fun fr => (JVal.obj fr.1, fr.2) := rfl
      rw [step]
      have hundef : w.isUndef = false := clean_not_undef w hcv
      have e2 : pFields (d + 1) ((k, w) :: fs') =
          indent (d + 1) ++ quoteStr k ++ ':' :: ' ' :: pVal (d + 1) w ++
            (if fs'.any (fun kv => !kv.2.isUndef) then ',' :: '\n' :: pFields (d + 1) fs'
             else []) := by
        simp only [pFields, hundef, Bool.false_eq_true, if_false]
      have hpeek : (skipWs ('\n' :: (pFields (d + 1) ((k, w) :: fs') ++
          ('\n' :: indent d ++ '}' :: rest)))).head? = some '"' := by
        rw [show ('\n' :: (pFields (d + 1) ((k, w) :: fs') ++
            ('\n' :: indent d ++ '}' :: rest)) : List Char) =
          ('\n' :: indent (d + 1)) ++ ('"' :: (((k.data.map escChar).flatten ++ ['"']) ++
            (':' :: ' ' :: pVal (d + 1) w ++
              ((if fs'.any (fun kv => !kv.2.isUndef) then
                ',' :: '\n' :: pFields (d + 1) fs' else []) ++
                ('\n' :: indent d ++ '}' :: rest))))) from by
          rw [e2]
          simp [quoteStr, List.append_assoc]]
        rw [skipWs_ws_append _ (wsOnly_nl_cons _ (indent_wsOnly (d + 1)))]
        rw [skipWs_not_ws _ _ (by decide)]
        rfl
      rw [hpeek]
      rw [show ((some '"' == some '}') : Bool) = false from rfl]
      simp only [Bool.false_eq_true, if_false]
      rw [show ('\n' :: (pFields (d + 1) ((k, w) :: fs') ++
          ('\n' :: indent d ++ '}' :: rest)) : List Char) =
        ['\n'] ++ (pFields (d + 1) ((k, w) :: fs') ++ (('\n' :: indent d) ++ '}' :: rest))
        from by simp [List.append_assoc]]
      rw [rtPFields ((k, w) :: fs') (d + 1) f ['\n'] ('\n' :: indent d) rest (by simp) hcf
        (by decide) (wsOnly_nl_cons _ (indent_wsOnly d)) hf']
      rfl
termination_by v d fuel rest hc hr hf => sizeOf v

theorem rtPElems : ∀ (es : List JVal) (d : Nat) (fuel : Nat) (pre post rest : List Char),
    es ≠ [] → cleanElems es = true → wsOnly pre = true → wsOnly post = true →
    needElems es ≤ fuel →
    pArrElems fuel (pre ++ (pElems d es ++ (post ++ ']' :: rest))) = some (es, rest)
  | [], d, fuel, pre, post, rest, hne, hc, hpre, hpost, hf => absurd rfl hne
  | e :: es', d, fuel, pre, post, rest, hne, hc, hpre, hpost, hf => by
    cases fuel with
    | zero =>
      have h1 := needV_pos e
      have h2 : needElems (e :: es') = max (needV e) (needElems es') + 1 := rfl
      omega
    | succ f =>
      have hcv : cleanV e = true ∧ cleanElems es' = true := by
        have h' : (cleanV e && cleanElems es') = true := hc
        simpa using h'
      have hfm : max (needV e) (needElems es') + 1 ≤ f + 1 := hf
      obtain ⟨hfe, hfes⟩ := Nat.max_le.mp (Nat.le_of_succ_le_succ hfm)
      cases es' with
      | nil =>
        have hXeq : pre ++ (pElems d [e] ++ (post ++ ']' :: rest)) =
            (pre ++ indent d) ++ (pVal d e ++ (post ++ ']' :: rest)) := by
          rw [show pElems d [e] = indent d ++ pVal d e from by simp [pElems]]
          simp [List.append_assoc]
        rw [hXeq, pArrElems_ws _ _ _ (wsOnly_append _ _ hpre (indent_wsOnly d))]
        show (pV f (pVal d e ++ (post ++ ']' :: rest))).bind _ = some ([e], rest)
        rw [rtPV e d f (post ++ ']' :: rest) hcv.1
          (ndsB_ws_append post hpost ']' (by decide) rest) hfe]
        show (match skipWs (post ++ ']' :: rest) with
          | ',' :: r2 => (pArrElems f r2).map fun er => (e :: er.1, er.2)
          | ']' :: r2 => some ([e], r2)
          | _ => none) = some ([e], rest)
        rw [skipWs_ws_append post hpost, skipWs_not_ws _ _ (by decide)]
        rfl
      | cons e2 es'' =>
        have hXeq : pre ++ (pElems d (e :: e2 :: es'') ++ (post ++ ']' :: rest)) =
            (pre ++ indent d) ++ (pVal d e ++ (',' :: ('\n' ::
              (pElems d (e2 :: es'') ++ (post ++ ']' :: rest))))) := by
          rw [show pElems d (e :: e2 :: es'') =
            indent d ++ pVal d e ++ (',' :: '\n' :: pElems d (e2 :: es''))
            from by simp [pElems]]
          simp [List.append_assoc]
        rw [hXeq, pArrElems_ws _ _ _ (wsOnly_append _ _ hpre (indent_wsOnly d))]
        show (pV f (pVal d e ++ (',' :: ('\n' ::
          (pElems d (e2 :: es'') ++ (post ++ ']' :: rest)))))).bind _ =
          some (e :: e2 :: es'', rest)
        rw [rtPV e d f (',' :: ('\n' :: (pElems d (e2 :: es'') ++ (post ++ ']' :: rest))))
          hcv.1 rfl hfe]
        show (pArrElems f ('\n' :: (pElems d (e2 :: es'') ++ (post ++ ']' :: rest)))).map
          (fun er => (e :: er.1, er.2)) = some (e :: e2 :: es'', rest)
        rw [show ('\n' :: (pElems d (e2 :: es'') ++ (post ++ ']' :: rest)) : List Char) =
          ['\n'] ++ (pElems d (e2 :: es'') ++ (post ++ ']' :: rest)) from rfl]
        rw [rtPElems (e2 :: es'') d f ['\n'] post rest (by simp) hcv.2 (by decide)
          hpost hfes]
        rfl
termination_by es d fuel pre post rest hne hc hpre hpost hf => sizeOf es

theorem rtPFields : ∀ (fs : List (String × JVal)) (d : Nat) (fuel : Nat)
    (pre post rest : List Char),
    fs ≠ [] → cleanFields fs = true → wsOnly pre = true → wsOnly post = true →
    needFields fs ≤ fuel →
    pObjFields fuel (pre ++ (pFields d fs ++ (post ++ '}' :: rest))) = some (fs, rest)
  | [], d, fuel, pre, post, rest, hne, hc, hpre, hpost, hf => absurd rfl hne
  | (k, v) :: fs', d, fuel, pre, post, rest, hne, hc, hpre, hpost, hf => by
    cases fuel with
    | zero =>
      have h1 := needV_pos v
      have h2 : needFields ((k, v) :: fs') = max (needV v) (needFields fs') + 1 := rfl
      omega
    | succ f =>
      have hcv : cleanV v = true ∧ cleanFields fs' = true := by
        have h' : (cleanV v && cleanFields fs') = true := hc
        simpa using h'
      have hundef : v.isUndef = false := clean_not_undef v hcv.1
      have hfm : max (needV v) (needFields fs') + 1 ≤ f + 1 := hf
      obtain ⟨hfv, hffs⟩ := Nat.max_le.mp (Nat.le_of_succ_le_succ hfm)
      have e2 : pFields d ((k, v) :: fs') =
          indent d ++ quoteStr k ++ ':' :: ' ' :: pVal d v ++
            (if fs'.any (fun kv => !kv.2.isUndef) then ',' :: '\n' :: pFields d fs'
             else []) := by
        simp only [pFields, hundef, Bool.false_eq_true, if_false]
      cases fs' with
      | nil =>
        have hXeq : pre ++ (pFields d [(k, v)] ++ (post ++ '}' :: rest)) =
            (pre ++ indent d) ++ ('"' :: ((k.data.map escChar).flatten ++ '"' ::
              (':' :: (' ' :: (pVal d v ++ (post ++ '}' :: rest)))))) := by
          rw [e2]
          show pre ++ ((((indent d ++ ('"' :: ((k.data.map escChar).flatten ++ ['"']))) ++
            (':' :: ' ' :: pVal d v)) ++ []) ++ (post ++ '}' :: rest)) = _
          simp [List.append_assoc]
        rw [hXeq, pObjFields_ws _ _ _ (wsOnly_append _ _ hpre (indent_wsOnly d))]
        show (pStrBody ((k.data.map escChar).flatten ++ '"' ::
          (':' :: (' ' :: (pVal d v ++ (post ++ '}' :: rest)))))).bind _ =
          some ([(k, v)], rest)
        rw [pStrBody_esc]
        show (pV f ([' '] ++ (pVal d v ++ (post ++ '}' :: rest)))).bind _ =
          some ([(k, v)], rest)
        rw [pV_ws f [' '] _ (by decide)]
        rw [rtPV v d f (post ++ '}' :: rest) hcv.1
          (ndsB_ws_append post hpost '}' (by decide) rest) hfv]
        show (match skipWs (post ++ '}' :: rest) with
          | ',' :: r4 => (pObjFields f r4).map fun fr =>
              ((String.mk k.data, v) :: fr.1, fr.2)
          | '}' :: r4 => some ([(String.mk k.data, v)], r4)
          | _ => none) = some ([(k, v)], rest)
        rw [skipWs_ws_append post hpost, skipWs_not_ws _ _ (by decide)]
        rfl
      | cons kv2 fs'' =>
        have hXeq : pre ++ (pFields d ((k, v) :: kv2 :: fs'') ++ (post ++ '}' :: rest)) =
            (pre ++ indent d) ++ ('"' :: ((k.data.map escChar).flatten ++ '"' ::
              (':' :: (' ' :: (pVal d v ++ (',' :: ('\n' ::
                (pFields d (kv2 :: fs'') ++ (post ++ '}' :: rest))))))))) := by
          rw [e2, cleanFields_any (kv2 :: fs'') hcv.2]
          show pre ++ ((((indent d ++ ('"' :: ((k.data.map escChar).flatten ++ ['"']))) ++
            (':' :: ' ' :: pVal d v)) ++ (',' :: '\n' :: pFields d (kv2 :: fs''))) ++
            (post ++ '}' :: rest)) = _
          simp [List.append_assoc]
        rw [hXeq, pObjFields_ws _ _ _ (wsOnly_append _ _ hpre (indent_wsOnly d))]
        show (pStrBody ((k.data.map escChar).flatten ++ '"' ::
          (':' :: (' ' :: (pVal d v ++ (',' :: ('\n' ::
            (pFields d (kv2 :: fs'') ++ (post ++ '}' :: rest))))))))).bind _ =
          some ((k, v) :: kv2 :: fs'', rest)
        rw [pStrBody_esc]
        show (pV f ([' '] ++ (pVal d v ++ (',' :: ('\n' ::
          (pFields d (kv2 :: fs'') ++ (post ++ '}' :: rest))))))).bind _ =
          some ((k, v) :: kv2 :: fs'', rest)
        rw [pV_ws f [' '] _ (by decide)]
        rw [rtPV v d f (',' :: ('\n' :: (pFields d (kv2 :: fs'') ++
          (post ++ '}' :: rest)))) hcv.1 rfl hfv]
        show (pObjFields f ('\n' :: (pFields d (kv2 :: fs'') ++ (post ++ '}' :: rest)))).map
          (fun fr => ((String.mk k.data, v) :: fr.1, fr.2)) =
          some ((k, v) :: kv2 :: fs'', rest)
        rw [show ('\n' :: (pFields d (kv2 :: fs'') ++ (post ++ '}' :: rest)) : List Char) =
          ['\n'] ++ (pFields d (kv2 :: fs'') ++ (post ++ '}' :: rest)) from rfl]
        rw [rtPFields (kv2 :: fs'') d f ['\n'] post rest (by simp) hcv.2 (by decide)
          hpost hffs]
        rfl
termination_by fs d fuel pre post rest hne hc hpre hpost hf => sizeOf fs

end

/-! ## Concrete fixture store

A small store exercising every partition: `system` and `workflows` entries,
two packages known to the `packages` listing, one application known to the
`applications` listing, and the `h1b-visa-analysis` directory that
`getApplicationPrompts` reads.  The name `cache` is deliberately absent. -/

def fullStore : Store :=
  { base := some [⟨"system", true⟩, ⟨"workflows", true⟩, ⟨"packages", true⟩,
      ⟨"applications", true⟩, ⟨"alpha", true⟩, ⟨"beta", true⟩,
      ⟨"h1b-visa-analysis", true⟩, ⟨".git", true⟩, ⟨"README.md", false⟩],
    dirs := fun d =>
      if d = "system" then some [⟨"overview.md", true, some "sys text"⟩]
      else if d = "workflows" then some [⟨"report-generation.md", true, some "wf text"⟩]
      else if d = "packages" then some [⟨"alpha", false, none⟩, ⟨"beta", false, none⟩]
      else if d = "applications" then some [⟨"app1", false, none⟩]
      else if d = "alpha" then some [⟨"overview.md", true, some "alpha overview"⟩]
      else if d = "beta" then some [⟨"overview.md", true, some "beta overview"⟩]
      else if d = "h1b-visa-analysis" then some [⟨"overview.md", true, some "h1b text"⟩]
      else none }

/-- Top-level keys of a successful aggregation's context. -/
def ctxTopKeys (r : Tr (JVal × ContextMetadata)) : List String :=
  match r.2 with
  | .ok (JVal.obj fs, _) => fs.map Prod.fst
  | _ => []

/-- The context of a successful aggregation. -/
def ctxOf (r : Tr (JVal × ContextMetadata)) : JVal :=
  match r.2 with
  | .ok (ctx, _) => ctx
  | _ => .jnull

/-- The recorded `totalPrompts` of a successful aggregation. -/
def mdTotal (r : Tr (JVal × ContextMetadata)) : Nat :=
  match r.2 with
  | .ok (_, md) => md.totalPrompts
  | _ => 0

def fullOpts : ContextOptions :=
  { scope := "full", target := none, format := "json", includeMetadata := true, minify := false }

def wfMissOpts : ContextOptions :=
  { scope := "workflow", target := some "nonexistent", format := "json",
    includeMetadata := true, minify := false }

def pkgMissOpts : ContextOptions :=
  { scope := "package", target := some "cache", format := "json",
    includeMetadata := true, minify := false }

def c5Opts : ContextOptions :=
  { scope := "package", target := none, format := "json",
    includeMetadata := true, minify := false }

/-! ## Claim theorems: aggregation -/

/-- C1: against the claim, a `full`-scope aggregation over a store whose
`packages` listing knows `alpha` and `beta` returns a context whose
top-level keys are only the last package and `applications`: the `system`
and `workflows` entries and every package before the last are discarded by
the fresh-builder reassignment inside the package loop. -/
theorem c1_full_scope_drops_earlier_keys :
    ctxTopKeys (buildContext fullStore "t0" fullOpts) = ["beta", "applications"] ∧
    (listPackagesT fullStore).2 = .ok ["alpha", "beta"] ∧
    getPrompts fullStore "system" = .ok [("overview", "sys text")] :=
  ⟨by decide, rfl, rfl⟩

/-- C2: against the claim, for the valid combination scope=`workflow` with
a supplied target that names no workflow entry, the recorded
`totalPrompts` is `1` while the returned context contains no string leaf
at all. -/
theorem c2_totalPrompts_not_structural :
    mdTotal (buildContext fullStore "t0" wfMissOpts) = 1 ∧
    countPrompts (ctxOf (buildContext fullStore "t0" wfMissOpts)) = 0 := by
  refine ⟨by decide, ?_⟩
  simp only [show ctxOf (buildContext fullStore "t0" wfMissOpts) =
    JVal.obj [("workflow", JVal.obj [("nonexistent", JVal.undef)])] from rfl]
  simp [countPrompts, countFieldList]

/-- C3: against the claim, aggregating scope=`workflow` with the
nonexistent target still binds the target name (to `undefined`, not to an
empty mapping) and records a count of `1`, not `0`. -/
theorem c3_missing_workflow_counted_as_one :
    ctxOf (buildContext fullStore "t0" wfMissOpts) =
      JVal.obj [("workflow", JVal.obj [("nonexistent", JVal.undef)])] ∧
    mdTotal (buildContext fullStore "t0" wfMissOpts) = 1 :=
  ⟨rfl, by decide⟩

/-- C4 counterexample: aggregating scope=`package` for a target whose
directory does not exist does not degrade to an empty mapping — the run
aborts with the rethrown `getPrompts` error. -/
theorem c4_missing_dir_aborts_aggregation :
    (buildContext fullStore "t0" pkgMissOpts).2 =
      .error "Failed to load prompts for: cache" := rfl

/-- C4 amended: absence degrades to emptiness only for listing-level
operations (`listPromptFiles`, and `listAll` on an unreadable root), while
a package-scope aggregation whose target directory cannot be read fails
with an error naming the target. -/
theorem c4_amended_absence_behaviour (st : Store) (name : String) (h : st.dirs name = none)
    (now fmt : String) (im mi : Bool) :
    getPrompts st name = .error ("Failed to load prompts for: " ++ name) ∧
    listPromptFiles st name = [] ∧
    (st.base = none → listAll st = []) ∧
    (buildContext st now ⟨"package", some name, fmt, im, mi⟩).2 =
      .error ("Failed to load prompts for: " ++ name) := by
  refine ⟨by simp [getPrompts, h], by simp [listPromptFiles, h],
    fun hb => by simp [listAll, hb], ?_⟩
  simp [buildContext, Bind.bind, Tr.bind, Pure.pure, Tr.pure, listPackagesT,
    listApplicationsT, listWorkflowsT, getPromptsT, h, Tr.throw]

/-- C4 amended, witness at a concrete input: the `cache` directory is
absent from the fixture store. -/
theorem c4_amended_witness :
    getPrompts fullStore "cache" = .error "Failed to load prompts for: cache" ∧
    listPromptFiles fullStore "cache" = [] ∧
    (fullStore.base = none → listAll fullStore = []) ∧
    (buildContext fullStore "t0" ⟨"package", some "cache", "json", true, false⟩).2 =
      .error "Failed to load prompts for: cache" :=
  c4_amended_absence_behaviour fullStore "cache" rfl "t0" "json" true false

/-- C5: invoking the tool with scope `package` or `application` and no
target fails with the configuration error naming the missing `--target`
parameter, with an empty Entry Store access trace — the guard in `main`
fires before `buildContext` performs its listing calls. -/
theorem c5_missing_target_fails_before_store (st : Store) (now : String)
    (opts : ContextOptions)
    (hscope : opts.scope = "package" ∨ opts.scope = "application")
    (htarget : opts.target = none) :
    mainRun st now opts =
      ([], .error ("Error: --target is required for scope " ++ opts.scope)) := by
  rcases hscope with h | h <;> simp [mainRun, h, htarget]

/-- C5 witness: the concrete package-scope invocation without a target. -/
theorem c5_missing_target_witness :
    mainRun fullStore "t0" c5Opts =
      ([], .error "Error: --target is required for scope package") :=
  c5_missing_target_fails_before_store fullStore "t0" c5Opts (Or.inl rfl) rfl

/-! ## Claim theorems: validator -/

theorem foldl_if_count {α : Type} (p : α → Prop) [DecidablePred p] (l : List α) (n : Nat) :
    l.foldl (fun m x => if p x then m else m + 1) n =
      n + (l.filter (fun x => !(decide (p x)))).length := by
  induction l generalizing n with
  | nil => simp
  | cons a t ih =>
    by_cases hq : p a
    · simp [hq, ih]
    · simp [hq, ih]
      omega

/-- C8: the validator succeeds exactly when the missing set and the orphan
set are both empty; on the ground truth `{A: package, B: application}`
with a store containing only `packages/A` and `packages/C`, the missing
set is `[B]`, the orphan set is the `src/packages/C` location, and the
overall result is failure. -/
theorem c8_validator_success_iff (projectPackages : List PackageInfo)
    (storePkgs storeApps : List String) :
    ((validatePromptStructure projectPackages storePkgs storeApps).success = true ↔
      ((validatePromptStructure projectPackages storePkgs storeApps).missing = [] ∧
       (validatePromptStructure projectPackages storePkgs storeApps).orphaned = [])) ∧
    validatePromptStructure [⟨"A", .package⟩, ⟨"B", .application⟩] ["A", "C"] [] =
      { found := 1, missingCount := 1, orphanedCount := 1, missing := ["B"],
        orphaned := ["src/packages/C"], success := false } := by
  refine ⟨?_, by decide⟩
  simp only [validatePromptStructure]
  rw [foldl_if_count, foldl_if_count]
  simp [List.length_eq_zero, decide_not]

/-! ## Claim theorems: listAll -/

/-- C10: `listAll` returns the store's child directory names with every
dot-initial name and every non-directory excluded, sorted by the JS
comparator (UTF-16 code-unit lexicographic order), and an unreadable base
directory yields the empty list rather than an error. -/
theorem c10_listAll_spec (st : Store) :
    (st.base = none → listAll st = []) ∧
    (listAll st).Sorted jsLe ∧
    (∀ items, st.base = some items →
      ∀ x, x ∈ listAll st ↔
        ∃ it ∈ items, it.isDir = true ∧ startsWithDot it.name = false ∧ it.name = x) := by
  refine ⟨fun h => by simp [listAll, h], ?_, ?_⟩
  · cases hb : st.base with
    | none => simp [listAll, hb]
    | some items =>
      simp only [listAll, hb]
      exact List.sorted_insertionSort jsLe _
  · intro items hb x
    simp only [listAll, hb, List.mem_insertionSort, List.mem_map, List.mem_filter]
    constructor
    · rintro ⟨it, ⟨hmem, hcond⟩, rfl⟩
      simp only [Bool.and_eq_true, Bool.not_eq_true'] at hcond
      exact ⟨it, hmem, hcond.1, hcond.2, rfl⟩
    · rintro ⟨it, hmem, hdir, hdot, rfl⟩
      exact ⟨it, ⟨hmem, by simp [hdir, hdot]⟩, rfl⟩

/-! ## Claim theorems: read failures are skipped (C6) -/

theorem mem_objSet {α : Type} (l : List (String × α)) (k₀ : String) (v₀ : α)
    (k : String) (v : α) (h : (k, v) ∈ objSet l k₀ v₀) :
    (k, v) ∈ l ∨ (k = k₀ ∧ v = v₀) := by
  induction l with
  | nil =>
    simp only [objSet, List.mem_singleton, Prod.mk.injEq] at h
    exact Or.inr h
  | cons a t ih =>
    obtain ⟨a1, a2⟩ := a
    simp only [objSet] at h
    by_cases he : a1 == k₀
    · rw [if_pos he] at h
      rcases List.mem_cons.mp h with hh | ht
      · have hk : k = a1 ∧ v = v₀ := by simpa [Prod.ext_iff] using hh
        exact Or.inr ⟨hk.1.trans (beq_iff_eq.mp he), hk.2⟩
      · exact Or.inl (List.mem_cons_of_mem _ ht)
    · rw [if_neg he] at h
      rcases List.mem_cons.mp h with hh | ht
      · exact Or.inl (List.mem_cons.mpr (Or.inl hh))
      · rcases ih ht with h1 | h2
        · exact Or.inl (List.mem_cons_of_mem _ h1)
        · exact Or.inr h2

theorem mem_keys_objSet {α : Type} (l : List (String × α)) (k₀ : String) (v₀ : α)
    (k : String) :
    k ∈ (objSet l k₀ v₀).map Prod.fst ↔ k ∈ l.map Prod.fst ∨ k = k₀ := by
  induction l with
  | nil => simp [objSet]
  | cons a t ih =>
    obtain ⟨a1, a2⟩ := a
    simp only [objSet]
    by_cases he : a1 == k₀
    · rw [if_pos he]
      have : a1 = k₀ := beq_iff_eq.mp he
      subst this
      simp [or_comm, or_assoc]
    · rw [if_neg he]
      simp only [List.map_cons, List.mem_cons, ih]
      tauto

/-- The successfully-read, visible `.md` entries of a directory listing,
keyed by stripped name. -/
def collectedKey (files : List FileEnt) (k : String) : Prop :=
  ∃ f ∈ files, f.isFile = true ∧ extname f.name = ".md" ∧ f.content.isSome = true ∧
    stripMd f.name = k

theorem collect_mem (files : List FileEnt) : ∀ (acc : PromptObj) (k v : String),
    (k, v) ∈ collectPrompts files acc →
    (k, v) ∈ acc ∨ ∃ f ∈ files, f.isFile = true ∧ extname f.name = ".md" ∧
      f.content = some v ∧ stripMd f.name = k := by
  induction files with
  | nil =>
    intro acc k v h
    simp only [collectPrompts] at h
    exact Or.inl h
  | cons f rest ih =>
    intro acc k v h
    simp only [collectPrompts] at h
    by_cases hc : f.isFile && extname f.name == ".md"
    · rw [if_pos hc] at h
      have hc' := Bool.and_eq_true .. ▸ hc
      cases hcont : f.content with
      | some c =>
        rw [hcont] at h
        rcases ih _ _ _ h with hacc | ⟨g, hg, hgs⟩
        · rcases mem_objSet _ _ _ _ _ hacc with h1 | ⟨rfl, rfl⟩
          · exact Or.inl h1
          · exact Or.inr ⟨f, List.mem_cons_self f rest, hc'.1, beq_iff_eq.mp hc'.2,
              hcont, rfl⟩
        · exact Or.inr ⟨g, List.mem_cons_of_mem _ hg, hgs⟩
      | none =>
        rw [hcont] at h
        rcases ih _ _ _ h with hacc | ⟨g, hg, hgs⟩
        · exact Or.inl hacc
        · exact Or.inr ⟨g, List.mem_cons_of_mem _ hg, hgs⟩
    · rw [if_neg hc] at h
      rcases ih _ _ _ h with hacc | ⟨g, hg, hgs⟩
      · exact Or.inl hacc
      · exact Or.inr ⟨g, List.mem_cons_of_mem _ hg, hgs⟩

theorem collect_keys (files : List FileEnt) : ∀ (acc : PromptObj) (k : String),
    k ∈ (collectPrompts files acc).map Prod.fst ↔
      k ∈ acc.map Prod.fst ∨ collectedKey files k := by
  induction files with
  | nil =>
    intro acc k
    simp [collectPrompts, collectedKey]
  | cons f rest ih =>
    intro acc k
    simp only [collectPrompts]
    by_cases hc : f.isFile && extname f.name == ".md"
    · rw [if_pos hc]
      have hc' := Bool.and_eq_true .. ▸ hc
      cases hcont : f.content with
      | some c =>
        rw [ih, mem_keys_objSet]
        constructor
        · rintro (⟨hacc | rfl⟩ | hrest)
          · exact Or.inl hacc
          · exact Or.inr ⟨f, List.mem_cons_self f rest, hc'.1, beq_iff_eq.mp hc'.2,
              by simp [hcont], rfl⟩
          · obtain ⟨g, hg, hgs⟩ := hrest
            exact Or.inr ⟨g, List.mem_cons_of_mem _ hg, hgs⟩
        · rintro (hacc | ⟨g, hg, hgs⟩)
          · exact Or.inl (Or.inl hacc)
          · rcases List.mem_cons.mp hg with rfl | hgr
            · exact Or.inl (Or.inr hgs.2.2.2.symm)
            · exact Or.inr ⟨g, hgr, hgs⟩
      | none =>
        rw [ih]
        constructor
        · rintro (hacc | ⟨g, hg, hgs⟩)
          · exact Or.inl hacc
          · exact Or.inr ⟨g, List.mem_cons_of_mem _ hg, hgs⟩
        · rintro (hacc | ⟨g, hg, hgs⟩)
          · exact Or.inl hacc
          · rcases List.mem_cons.mp hg with rfl | hgr
            · simp [hcont] at hgs
            · exact Or.inr ⟨g, hgr, hgs⟩
    · rw [if_neg hc]
      rw [ih]
      constructor
      · rintro (hacc | ⟨g, hg, hgs⟩)
        · exact Or.inl hacc
        · exact Or.inr ⟨g, List.mem_cons_of_mem _ hg, hgs⟩
      · rintro (hacc | ⟨g, hg, hgs⟩)
        · exact Or.inl hacc
        · rcases List.mem_cons.mp hg with rfl | hgr
          · exact absurd (by simp [hgs.1, hgs.2.1] :
              (g.isFile && extname g.name == ".md") = true) hc
          · exact Or.inr ⟨g, hgr, hgs⟩

/-- C6: a directory that lists successfully never makes `getPrompts`
fail; the keys of the result are exactly the stripped names of the
visible `.md` files whose read succeeded (a failed read is skipped, its
key absent), and every binding carries the exact text that was read —
never a null or empty placeholder. -/
theorem c6_read_failure_skipped (st : Store) (name : String) (files : List FileEnt)
    (h : st.dirs name = some files) :
    getPrompts st name = .ok (collectPrompts files []) ∧
    (∀ k v, (k, v) ∈ collectPrompts files [] →
      ∃ f ∈ files, f.isFile = true ∧ extname f.name = ".md" ∧ f.content = some v ∧
        stripMd f.name = k) ∧
    (∀ k, k ∈ (collectPrompts files []).map Prod.fst ↔ collectedKey files k) := by
  refine ⟨by simp [getPrompts, h], ?_, ?_⟩
  · intro k v hm
    rcases collect_mem files [] k v hm with h0 | h1
    · simp at h0
    · exact h1
  · intro k
    rw [collect_keys]
    simp

/-- A directory listing with one unreadable `.md` file, one non-`.md`
file and one subdirectory. -/
def mixedFiles : List FileEnt :=
  [⟨"overview.md", true, some "ok text"⟩, ⟨"api.md", true, none⟩,
   ⟨"notes.txt", true, some "x"⟩, ⟨"sub", false, none⟩]

def c6Store : Store :=
  { base := none, dirs := fun d => if d = "docs" then some mixedFiles else none }

/-- C6 witness: over the mixed listing, `overview` is a key (read
succeeded) by the key characterization. -/
theorem c6_read_failure_witness :
    "overview" ∈ (collectPrompts mixedFiles []).map Prod.fst ↔
      collectedKey mixedFiles "overview" :=
  (c6_read_failure_skipped c6Store "docs" mixedFiles rfl).2.2 "overview"

/-! ## Claim theorems: builder snapshot isolation (C9) -/

theorem heapGet_heapSet_ne (h : List (Nat × TopObj)) (a b : Nat) (o : TopObj)
    (hne : b ≠ a) : heapGet (heapSet h b o) a = heapGet h a := by
  induction h with
  | nil => rfl
  | cons p t ih =>
    obtain ⟨a₀, o₀⟩ := p
    simp only [heapSet]
    by_cases he : a₀ == b
    · rw [if_pos he]
      have : a₀ = b := beq_iff_eq.mp he
      subst this
      simp only [heapGet]
      rw [if_neg (by simpa using hne), if_neg (by simpa using hne)]
    · rw [if_neg he]
      simp only [heapGet]
      by_cases ha : a₀ == a
      · rw [if_pos ha, if_pos ha]
      · rw [if_neg ha, if_neg ha]
        exact ih

theorem heapGet_append_ne (h : List (Nat × TopObj)) (b : Nat) (o : TopObj) (a : Nat)
    (hne : b ≠ a) : heapGet (h ++ [(b, o)]) a = heapGet h a := by
  induction h with
  | nil =>
    simp only [List.nil_append, heapGet]
    rw [if_neg (by simpa using hne)]
  | cons p t ih =>
    obtain ⟨a₀, o₀⟩ := p
    simp only [List.cons_append, heapGet]
    by_cases ha : a₀ == a
    · rw [if_pos ha, if_pos ha]
    · rw [if_neg ha, if_neg ha]
      exact ih

theorem heapGet_append_fresh (h : List (Nat × TopObj)) (b : Nat) (o : TopObj)
    (hfresh : ∀ p ∈ h, p.1 ≠ b) : heapGet (h ++ [(b, o)]) b = some o := by
  induction h with
  | nil => simp [heapGet]
  | cons p t ih =>
    obtain ⟨a₀, o₀⟩ := p
    simp only [List.cons_append, heapGet]
    rw [if_neg (by simpa using hfresh (a₀, o₀) (List.mem_cons_self _ _))]
    exact ih fun q hq => hfresh q (List.mem_cons_of_mem _ hq)

/-- The frame invariant: the snapshot address stays below the allocation
counter, is never the builder's context address, and its binding is
untouched. -/
def FrameInv (a : Nat) (σ : BuilderState) (s : Option TopObj) : Prop :=
  a < σ.next ∧ σ.ctxAddr ≠ a ∧ heapGet σ.heap a = s

theorem load_frame (st : Store) (a : Nat) (σ : BuilderState) (name : String)
    (s : Option TopObj) (hinv : FrameInv a σ s) :
    FrameInv a (ContextBuilder.load st σ name).1 s := by
  obtain ⟨h1, h2, h3⟩ := hinv
  unfold ContextBuilder.load
  cases getPrompts st name with
  | error e => exact ⟨h1, h2, h3⟩
  | ok p =>
    simp only
    cases heapGet σ.heap σ.ctxAddr with
    | none => exact ⟨h1, h2, h3⟩
    | some o =>
      refine ⟨h1, h2, ?_⟩
      rw [heapGet_heapSet_ne _ _ _ _ h2]
      exact h3

theorem loadMany_frame (st : Store) (a : Nat) (s : Option TopObj) :
    ∀ (names : List String) (σ : BuilderState), FrameInv a σ s →
      FrameInv a (ContextBuilder.loadMany st σ names).1 s := by
  intro names
  induction names with
  | nil => intro σ h; exact h
  | cons n ns ih =>
    intro σ h
    unfold ContextBuilder.loadMany
    have hl := load_frame st a σ n s h
    cases hld : ContextBuilder.load st σ n with
    | mk σ' err =>
      rw [hld] at hl
      cases err with
      | none =>
        simp only
        exact ih σ' hl
      | some e =>
        simp only
        exact hl

theorem stepCall_frame (st : Store) (a : Nat) (σ : BuilderState) (c : BuilderCall)
    (s : Option TopObj) (hinv : FrameInv a σ s) :
    FrameInv a (stepCall st σ c).1 s := by
  obtain ⟨h1, h2, h3⟩ := hinv
  cases c with
  | load n => exact load_frame st a σ n s ⟨h1, h2, h3⟩
  | loadMany ns => exact loadMany_frame st a s ns σ ⟨h1, h2, h3⟩
  | loadAll => exact loadMany_frame st a s (listAll st) σ ⟨h1, h2, h3⟩
  | clear =>
    refine ⟨?_, ?_, ?_⟩ <;> simp only [stepCall, ContextBuilder.clear]
    · omega
    · omega
    · rw [heapGet_append_ne _ _ _ _ (by omega)]
      exact h3

theorem runCalls_frame (st : Store) (a : Nat) (s : Option TopObj) :
    ∀ (calls : List BuilderCall) (σ : BuilderState), FrameInv a σ s →
      heapGet (runCalls st calls σ).heap a = s := by
  intro calls
  induction calls with
  | nil => intro σ h; exact h.2.2
  | cons c cs ih =>
    intro σ h
    unfold runCalls
    have hs := stepCall_frame st a σ c s h
    cases hsc : stepCall st σ c with
    | mk σ' err =>
      rw [hsc] at hs
      cases err with
      | none => exact ih σ' hs
      | some e => exact hs.2.2

/-- C9: `build()` hands back a fresh top-level copy: for any builder whose
context address is a live allocation, the address `build` returns holds
the copied top-level object, and no subsequent sequence of `load`,
`loadMany`, `loadAll` or `clear` calls changes the binding at that
address — the snapshot's top-level keys are never added to, removed or
rebound. -/
theorem c9_build_snapshot_isolated (st : Store) (σ : BuilderState)
    (calls : List BuilderCall)
    (h1 : σ.ctxAddr < σ.next) (h2 : ∀ p ∈ σ.heap, p.1 < σ.next) :
    heapGet (ContextBuilder.build σ).2.heap (ContextBuilder.build σ).1 =
      some ((heapGet σ.heap σ.ctxAddr).getD []) ∧
    heapGet (runCalls st calls (ContextBuilder.build σ).2).heap (ContextBuilder.build σ).1 =
      some ((heapGet σ.heap σ.ctxAddr).getD []) := by
  have hcopy : heapGet (ContextBuilder.build σ).2.heap (ContextBuilder.build σ).1 =
      some ((heapGet σ.heap σ.ctxAddr).getD []) := by
    simp only [ContextBuilder.build]
    exact heapGet_append_fresh _ _ _ fun p hp => Nat.ne_of_lt (h2 p hp)
  refine ⟨hcopy, ?_⟩
  refine runCalls_frame st (ContextBuilder.build σ).1 _ calls _ ⟨?_, ?_, hcopy⟩
  · simp [ContextBuilder.build]
  · simp only [ContextBuilder.build]
    omega

/-- C9 witness: a fresh builder, one load into it, a build, then further
loads and a clear; the built snapshot's binding is unchanged. -/
theorem c9_build_snapshot_witness :
    heapGet (ContextBuilder.build createContextBuilder).2.heap
        (ContextBuilder.build createContextBuilder).1 =
      some ((heapGet createContextBuilder.heap createContextBuilder.ctxAddr).getD []) ∧
    heapGet (runCalls fullStore [.load "alpha", .loadAll, .clear]
        (ContextBuilder.build createContextBuilder).2).heap
        (ContextBuilder.build createContextBuilder).1 =
      some ((heapGet createContextBuilder.heap createContextBuilder.ctxAddr).getD []) :=
  c9_build_snapshot_isolated fullStore createContextBuilder
    [.load "alpha", .loadAll, .clear] (by decide) (by decide)

/-- C10 witness: the fixture store's base listing. -/
theorem c10_listAll_witness :
    "packages" ∈ listAll fullStore ↔
      ∃ it ∈ [DirEnt.mk "system" true, ⟨"workflows", true⟩, ⟨"packages", true⟩,
        ⟨"applications", true⟩, ⟨"alpha", true⟩, ⟨"beta", true⟩,
        ⟨"h1b-visa-analysis", true⟩, ⟨".git", true⟩, ⟨"README.md", false⟩],
        it.isDir = true ∧ startsWithDot it.name = false ∧ it.name = "packages" :=
  (c10_listAll_spec fullStore).2.2 _ rfl "packages"

/-! ## Fuel bounds: the canonical budget suffices for the printed forms -/

mutual

/-- The fuel measure of a clean value is bounded by its minified length. -/
theorem needV_le_min : ∀ (v : JVal), cleanV v = true → needV v ≤ (minVal v).length
  | .undef, hc => by simp [cleanV] at hc
  | .jnull, _ => by simp [needV, minVal]
  | .str s, _ => by
    simp only [needV, minVal, quoteStr, List.length_append, List.length_cons]
    omega
  | .num n, _ => by
    obtain ⟨dg, t, hdt, _⟩ := natChars_head n
    rw [show minVal (JVal.num n) = natChars n from by simp [minVal], hdt]
    simp only [needV, List.length_cons]
    omega
  | .arr es, hc => by
    have h := needElems_le_min es (by simpa [cleanV] using hc)
    simp only [needV, minVal, List.length_cons, List.length_append]
    omega
  | .obj fs, hc => by
    have h := needFields_le_min fs (by simpa [cleanV] using hc)
    simp only [needV, minVal, List.length_cons, List.length_append]
    omega

theorem needElems_le_min : ∀ (es : List JVal), cleanElems es = true →
    needElems es ≤ (minElems es).length + 1
  | [], _ => by simp [needElems, minElems]
  | e :: rest, hc => by
    have hce : cleanV e = true ∧ cleanElems rest = true := by
      simpa [cleanElems, Bool.and_eq_true] using hc
    have h1 := needV_le_min e hce.1
    have h2 := needElems_le_min rest hce.2
    cases rest with
    | nil =>
      rw [show minElems [e] = minVal e from by simp [minElems]]
      rw [show needElems [e] = max (needV e) (needElems []) + 1 from by simp [needElems]]
      simp only [needElems]
      omega
    | cons e2 t =>
      rw [show minElems (e :: e2 :: t) = minVal e ++ ',' :: minElems (e2 :: t)
        from by simp [minElems]]
      rw [show needElems (e :: e2 :: t) = max (needV e) (needElems (e2 :: t)) + 1
        from by simp [needElems]]
      simp only [List.length_append, List.length_cons]
      omega

theorem needFields_le_min : ∀ (fs : List (String × JVal)), cleanFields fs = true →
    needFields fs ≤ (minFields fs).length + 1
  | [], _ => by simp [needFields, minFields]
  | (k, v) :: rest, hc => by
    have hcf : cleanV v = true ∧ cleanFields rest = true := by
      simpa [cleanFields, Bool.and_eq_true] using hc
    have h1 := needV_le_min v hcf.1
    have h2 := needFields_le_min rest hcf.2
    have hundef : v.isUndef = false := clean_not_undef v hcf.1
    have hq : (quoteStr k).length = ((k.data.map escChar).flatten).length + 2 := by
      simp [quoteStr]
    cases rest with
    | nil =>
      rw [show minFields [(k, v)] = quoteStr k ++ ':' :: minVal v from by
        simp [minFields, hundef]]
      rw [show needFields [(k, v)] = max (needV v) (needFields []) + 1 from by
        simp [needFields]]
      simp only [needFields, List.length_append, List.length_cons, hq]
      omega
    | cons f t =>
      have hany : ((f :: t).any fun kv => !kv.2.isUndef) = true := by
        rw [cleanFields_any _ hcf.2]
        rfl
      rw [show minFields ((k, v) :: f :: t) = quoteStr k ++ ':' :: minVal v ++
        ',' :: minFields (f :: t) from by simp [minFields, hundef, hany]]
      rw [show needFields ((k, v) :: f :: t) = max (needV v) (needFields (f :: t)) + 1
        from by simp [needFields]]
      simp only [List.length_append, List.length_cons, hq]
      omega

end

mutual

/-- The fuel measure of a clean value is bounded by its pretty length. -/
theorem needV_le_p : ∀ (d : Nat) (v : JVal), cleanV v = true → needV v ≤ (pVal d v).length
  | d, .undef, hc => by simp [cleanV] at hc
  | d, .jnull, _ => by simp [needV, pVal]
  | d, .str s, _ => by
    rw [show pVal d (JVal.str s) = quoteStr s from by simp [pVal]]
    simp only [needV, quoteStr, List.length_append, List.length_cons]
    omega
  | d, .num n, _ => by
    obtain ⟨dg, t, hdt, _⟩ := natChars_head n
    rw [show pVal d (JVal.num n) = natChars n from by simp [pVal], hdt]
    simp only [needV, List.length_cons]
    omega
  | d, .arr [], _ => by
    rw [show pVal d (JVal.arr []) = ['[', ']'] from by simp [pVal]]
    simp [needV, needElems]
  | d, .arr (e :: es), hc => by
    have h := needElems_le_p (d + 1) (e :: es) (by simpa [cleanV] using hc)
    rw [show pVal d (JVal.arr (e :: es)) =
      '[' :: '\n' :: pElems (d + 1) (e :: es) ++ '\n' :: indent d ++ [']']
      from by simp [pVal]]
    simp only [needV, List.length_cons, List.length_append]
    omega
  | d, .obj [], _ => by
    rw [show pVal d (JVal.obj []) = ['{', '}'] from by simp [pVal]]
    simp [needV, needFields]
  | d, .obj ((k, v) :: fs), hc => by
    have hcf : cleanFields ((k, v) :: fs) = true := by simpa [cleanV] using hc
    have h := needFields_le_p (d + 1) ((k, v) :: fs) hcf
    have hany : (((k, v) :: fs).any fun kv => !kv.2.isUndef) = true := by
      rw [cleanFields_any _ hcf]
      rfl
    rw [show pVal d (JVal.obj ((k, v) :: fs)) =
      '{' :: '\n' :: pFields (d + 1) ((k, v) :: fs) ++ '\n' :: indent d ++ ['}']
      from by simp [pVal, hany]]
    simp only [needV, List.length_cons, List.length_append]
    omega

theorem needElems_le_p : ∀ (d : Nat) (es : List JVal), cleanElems es = true →
    needElems es ≤ (pElems d es).length + 1
  | d, [], _ => by simp [needElems]
  | d, e :: rest, hc => by
    have hce : cleanV e = true ∧ cleanElems rest = true := by
      simpa [cleanElems, Bool.and_eq_true] using hc
    have h1 := needV_le_p d e hce.1
    have h2 := needElems_le_p d rest hce.2
    cases rest with
    | nil =>
      rw [show pElems d [e] = indent d ++ pVal d e from by simp [pElems]]
      rw [show needElems [e] = max (needV e) (needElems []) + 1 from by simp [needElems]]
      simp only [needElems, List.length_append]
      omega
    | cons e2 t =>
      rw [show pElems d (e :: e2 :: t) =
        indent d ++ pVal d e ++ (',' :: '\n' :: pElems d (e2 :: t))
        from by simp [pElems]]
      rw [show needElems (e :: e2 :: t) = max (needV e) (needElems (e2 :: t)) + 1
        from by simp [needElems]]
      simp only [List.length_append, List.length_cons]
      omega

theorem needFields_le_p : ∀ (d : Nat) (fs : List (String × JVal)), cleanFields fs = true →
    needFields fs ≤ (pFields d fs).length + 1
  | d, [], _ => by simp [needFields]
  | d, (k, v) :: rest, hc => by
    have hcf : cleanV v = true ∧ cleanFields rest = true := by
      simpa [cleanFields, Bool.and_eq_true] using hc
    have h1 := needV_le_p d v hcf.1
    have h2 := needFields_le_p d rest hcf.2
    have hundef : v.isUndef = false := clean_not_undef v hcf.1
    have hq : (quoteStr k).length = ((k.data.map escChar).flatten).length + 2 := by
      simp [quoteStr]
    cases rest with
    | nil =>
      rw [show pFields d [(k, v)] = indent d ++ quoteStr k ++ ':' :: ' ' :: pVal d v
        from by simp [pFields, hundef]]
      rw [show needFields [(k, v)] = max (needV v) (needFields []) + 1 from by
        simp [needFields]]
      simp only [needFields, List.length_append, List.length_cons, hq]
      omega
    | cons f t =>
      have hany : ((f :: t).any fun kv => !kv.2.isUndef) = true := by
        rw [cleanFields_any _ hcf.2]
        rfl
      rw [show pFields d ((k, v) :: f :: t) = indent d ++ quoteStr k ++
        ':' :: ' ' :: pVal d v ++ (',' :: '\n' :: pFields d (f :: t))
        from by simp [pFields, hundef, hany]]
      rw [show needFields ((k, v) :: f :: t) = max (needV v) (needFields (f :: t)) + 1
        from by simp [needFields]]
      simp only [List.length_append, List.length_cons, hq]
      omega

end

/-- A structural context contains no `undefined` at any depth. -/
theorem isCtxFields_clean : ∀ (fs : List (String × JVal)), isCtxFields fs = true →
    cleanFields fs = true
  | [], _ => by simp [cleanFields]
  | (k, .str s) :: rest, h => by
    have hr := isCtxFields_clean rest (by simpa [isCtxFields] using h)
    simp [cleanFields, cleanV, hr]
  | (k, .obj gs) :: rest, h => by
    have h2 : isCtxFields gs = true ∧ isCtxFields rest = true := by
      simpa [isCtxFields, Bool.and_eq_true] using h
    have hg := isCtxFields_clean gs h2.1
    have hr := isCtxFields_clean rest h2.2
    simp [cleanFields, cleanV, hg, hr]
  | (k, .jnull) :: rest, h => by simp [isCtxFields] at h
  | (k, .undef) :: rest, h => by simp [isCtxFields] at h
  | (k, .num n) :: rest, h => by simp [isCtxFields] at h
  | (k, .arr es) :: rest, h => by simp [isCtxFields] at h
termination_by fs h => sizeOf fs

theorem isCtx_clean (v : JVal) (h : isCtx v = true) : cleanV v = true := by
  cases v with
  | jnull => simp [isCtx] at h
  | undef => simp [isCtx] at h
  | str s => simp [isCtx] at h
  | num n => simp [isCtx] at h
  | arr es => simp [isCtx] at h
  | obj fs =>
    have := isCtxFields_clean fs (by simpa [isCtx] using h)
    simpa [cleanV] using this

/-- Parsing the minified serialization of a clean value recovers it. -/
theorem jsonParse_minVal (v : JVal) (hc : cleanV v = true) :
    jsonParse (jsonStringify v) = some v := by
  have hrt := rtMinV v ((minVal v).length + 1) [] hc rfl
    (by have := needV_le_min v hc; omega)
  rw [List.append_nil] at hrt
  show (match pV ((minVal v).length + 1) (minVal v) with
    | some (w, rest) => if (skipWs rest).isEmpty then some w else none
    | none => none) = some v
  rw [hrt]
  rfl

/-- Parsing the pretty serialization of a clean value recovers it. -/
theorem jsonParse_pretty (v : JVal) (hc : cleanV v = true) :
    jsonParse (jsonStringifyPretty v) = some v := by
  have hrt := rtPV v 0 ((pVal 0 v).length + 1) [] hc rfl
    (by have := needV_le_p 0 v hc; omega)
  rw [List.append_nil] at hrt
  show (match pV ((pVal 0 v).length + 1) (pVal 0 v) with
    | some (w, rest) => if (skipWs rest).isEmpty then some w else none
    | none => none) = some v
  rw [hrt]
  rfl

/-- C7: for every well-formed AggregatedContext, the structured-data (json)
variant renders to `JSON.stringify` output in the minified case and to the
two-space pretty form otherwise, and parsing either output reproduces the
original mapping key-for-key and value-for-value; in particular both the
minified and the pretty rendering parse to the same value, so `minify`
changes whitespace only and never the semantic content. -/
theorem c7_json_roundtrip (ctx : JVal) (md : ContextMetadata) (sc : String)
    (tg : Option String) (h : isCtx ctx = true) :
    formatOutput ctx md ⟨sc, tg, "json", false, true⟩ = .ok (jsonStringify ctx) ∧
    formatOutput ctx md ⟨sc, tg, "json", false, false⟩ = .ok (jsonStringifyPretty ctx) ∧
    jsonParse (jsonStringify ctx) = some ctx ∧
    jsonParse (jsonStringifyPretty ctx) = some ctx := by
  have hc := isCtx_clean ctx h
  exact ⟨rfl, rfl, jsonParse_minVal ctx hc, jsonParse_pretty ctx hc⟩

/-- A concrete context exercising escapes, nesting and an empty object. -/
def c7Ctx : JVal :=
  .obj [("overview", .str "line one\nsays \"hi\" and a back\\slash"),
        ("guide", .obj [("setup", .str "step 1"), ("empty", .obj [])]),
        ("tab", .str "a\tb")]

def c7Md : ContextMetadata := ⟨"2024-01-01", "package", some "alpha", [], [], [], 3⟩

/-- C7 witness: the concrete context round-trips in both renderings. -/
theorem c7_json_roundtrip_witness :
    formatOutput c7Ctx c7Md ⟨"package", some "alpha", "json", false, true⟩ =
      .ok (jsonStringify c7Ctx) ∧
    formatOutput c7Ctx c7Md ⟨"package", some "alpha", "json", false, false⟩ =
      .ok (jsonStringifyPretty c7Ctx) ∧
    jsonParse (jsonStringify c7Ctx) = some c7Ctx ∧
    jsonParse (jsonStringifyPretty c7Ctx) = some c7Ctx :=
  c7_json_roundtrip c7Ctx c7Md "package" (some "alpha")
    (by simp [c7Ctx, isCtx, isCtxFields])

end Prompts
